import Mathlib

/-!
Verification of subcalc-auggie-orchestrator's coordination engine.

The development shallowly embeds the TypeScript sources:
  * `extractTaggedJson` (util/extractTaggedJson.ts) over `List Char`
    strings, with JavaScript's `String.prototype.indexOf`, `slice` and
    `trim` modelled explicitly and `JSON.parse` abstracted as a parameter
    (it is a platform collaborator, not code of this repository);
  * `safePath`, `commandAllowed` and the tool factories (tools/tools.ts)
    over a segment-based model of POSIX `resolve`/`relative`;
  * `SimpleMutex.runExclusive` (tools/mutex.ts) as a small-step scheduler
    over submitted operations, faithful to the promise chain: a caller's
    body may start only after the previous caller's release, which its
    `finally` runs on success and on error alike;
  * the three role loops of `runOrchestrator` (orchestrator.ts) as a
    cooperative interleaving machine whose atomic steps are the
    synchronous blocks between `await` points;
  * `sleep`'s timer/abort-listener mechanism with explicit times.
-/

namespace Subcalc

/-! ## String utilities (JavaScript semantics over `List Char`) -/

/-- Characters removed by `String.prototype.trim` (the common WhiteSpace
and LineTerminator code points). -/
def isJsWhitespace (c : Char) : Bool :=
  c = ' ' || c = '\t' || c = '\n' || c = '\r' || c = '\x0b' || c = '\x0c'

/-- JS `s.trim()`: strip leading and trailing whitespace. -/
def jsTrim (s : List Char) : List Char :=
  ((s.dropWhile isJsWhitespace).reverse.dropWhile isJsWhitespace).reverse

/-- The pattern occurs in `hay` starting at index `i`. -/
def occursAt (pat hay : List Char) (i : Nat) : Prop :=
  pat.isPrefixOf (hay.drop i)

instance (pat hay : List Char) (i : Nat) : Decidable (occursAt pat hay i) := by
  unfold occursAt; infer_instance

/-- JS `hay.indexOf(pat)`: index of the first occurrence, scanning left to
right; `none` when the pattern does not occur. -/
def firstIndexOf (hay pat : List Char) : Option Nat :=
  if pat.isPrefixOf hay then some 0
  else
    match hay with
    | [] => none
    | _ :: t => (firstIndexOf t pat).map (· + 1)

/-- JS `hay.indexOf(pat, from)`: first occurrence at index ≥ `from`. -/
def indexOfFrom (hay pat : List Char) (start : Nat) : Option Nat :=
  (firstIndexOf (hay.drop start) pat).map (· + start)

/-- JS `hay.includes(pat)`. -/
def includesSub (hay pat : List Char) : Bool :=
  (firstIndexOf hay pat).isSome

/-- JS `s.slice(a, b)` for `a ≤ b` within bounds. -/
def jsSlice (s : List Char) (a b : Nat) : List Char :=
  (s.drop a).take (b - a)

theorem firstIndexOf_some_occurs {hay pat : List Char} {i : Nat}
    (h : firstIndexOf hay pat = some i) : occursAt pat hay i := by
  induction hay generalizing i with
  | nil =>
      unfold firstIndexOf at h
      by_cases hp : pat.isPrefixOf ([] : List Char)
      · simp [hp] at h; subst h; simpa [occursAt] using hp
      · simp [hp] at h
  | cons c t ih =>
      unfold firstIndexOf at h
      by_cases hp : pat.isPrefixOf (c :: t)
      · simp [hp] at h; subst h; simpa [occursAt] using hp
      · simp [hp, Option.map_eq_some'] at h
        obtain ⟨j, hj, rfl⟩ := h
        have := ih hj
        simpa [occursAt, List.drop] using this

theorem firstIndexOf_some_least {hay pat : List Char} {i : Nat}
    (h : firstIndexOf hay pat = some i) :
    ∀ k, k < i → ¬ occursAt pat hay k := by
  induction hay generalizing i with
  | nil =>
      intro k hk
      unfold firstIndexOf at h
      by_cases hp : pat.isPrefixOf ([] : List Char)
      · simp [hp] at h; omega
      · simp [hp] at h
  | cons c t ih =>
      intro k hk
      unfold firstIndexOf at h
      by_cases hp : pat.isPrefixOf (c :: t)
      · simp [hp] at h; omega
      · simp [hp, Option.map_eq_some'] at h
        obtain ⟨j, hj, rfl⟩ := h
        cases k with
        | zero => simpa [occursAt] using hp
        | succ k =>
            have hk' : k < j := by omega
            have := ih hj k hk'
            simpa [occursAt, List.drop] using this

theorem firstIndexOf_eq_some_of_least {hay pat : List Char} {i : Nat}
    (hocc : occursAt pat hay i) (hleast : ∀ k, k < i → ¬ occursAt pat hay k) :
    firstIndexOf hay pat = some i := by
  induction hay generalizing i with
  | nil =>
      have : pat.isPrefixOf ([] : List Char) := by
        simpa [occursAt, List.drop_nil] using hocc
      cases i with
      | zero => unfold firstIndexOf; simp [this]
      | succ n =>
          exact absurd (by simpa [occursAt, List.drop_nil] using this)
            (hleast 0 (Nat.succ_pos n))
  | cons c t ih =>
      cases i with
      | zero =>
          have : pat.isPrefixOf (c :: t) := by simpa [occursAt] using hocc
          unfold firstIndexOf; simp [this]
      | succ n =>
          have hp : ¬ pat.isPrefixOf (c :: t) := by
            have := hleast 0 (Nat.succ_pos n)
            simpa [occursAt] using this
          have hocc' : occursAt pat t n := by
            simpa [occursAt, List.drop] using hocc
          have hleast' : ∀ k, k < n → ¬ occursAt pat t k := by
            intro k hk hbad
            exact hleast (k + 1) (by omega) (by simpa [occursAt, List.drop] using hbad)
          unfold firstIndexOf
          simp [hp, ih hocc' hleast']

theorem firstIndexOf_none_iff {hay pat : List Char} :
    firstIndexOf hay pat = none ↔ ∀ k, ¬ occursAt pat hay k := by
  constructor
  · intro h k hocc
    induction hay generalizing k with
    | nil =>
        unfold firstIndexOf at h
        by_cases hp : pat.isPrefixOf ([] : List Char)
        · simp [hp] at h
        · exact hp (by simpa [occursAt, List.drop_nil] using hocc)
    | cons c t ih =>
        unfold firstIndexOf at h
        by_cases hp : pat.isPrefixOf (c :: t)
        · simp [hp] at h
        · simp [hp] at h
          cases k with
          | zero => exact hp (by simpa [occursAt] using hocc)
          | succ k =>
              exact ih (by simpa using h) k (by simpa [occursAt, List.drop] using hocc)
  · intro h
    cases hfi : firstIndexOf hay pat with
    | none => rfl
    | some i => exact absurd (firstIndexOf_some_occurs hfi) (h i)

/-! ## Report extractor (util/extractTaggedJson.ts)

`JSON.parse` is a platform collaborator; the embedding takes it as a
parameter `parse` returning `Except` (exception or parsed value `J`). -/

/-- Result of `extractTaggedJson`: `undefined` (no markers), the parsed
object, or the `{ parseError, raw }` fallback object. -/
inductive ExtractResult (J : Type) where
  | notFound
  | parsed (v : J)
  | parseFailed (err : List Char) (raw : List Char)
deriving DecidableEq

/-- `` `<<<${tag}>>>` ``. -/
def startMarker (tag : List Char) : List Char :=
  "<<<".toList ++ tag ++ ">>>".toList

/-- `"<<<END>>>"`. -/
def endMarker : List Char := "<<<END>>>".toList

/-- Shallow embedding of `extractTaggedJson(text, tag)`. -/
def extractTaggedJson (J : Type) (parse : List Char → Except (List Char) J)
    (text tag : List Char) : ExtractResult J :=
  let start := startMarker tag
  match firstIndexOf text start with
  | none => .notFound
  | some i =>
    match indexOfFrom text endMarker (i + start.length) with
    | none => .notFound
    | some j =>
      let raw := jsTrim (jsSlice text (i + start.length) j)
      match parse raw with
      | .ok v => .parsed v
      | .error e => .parseFailed e raw

theorem occursAt_drop {pat hay : List Char} {s m : Nat} :
    occursAt pat (hay.drop s) m ↔ occursAt pat hay (s + m) := by
  unfold occursAt
  rw [List.drop_drop]

theorem indexOfFrom_eq_some_of_least {hay pat : List Char} {s j : Nat}
    (hj : occursAt pat hay j) (hs : s ≤ j)
    (hleast : ∀ k, s ≤ k → k < j → ¬ occursAt pat hay k) :
    indexOfFrom hay pat s = some j := by
  unfold indexOfFrom
  have h1 : firstIndexOf (hay.drop s) pat = some (j - s) := by
    apply firstIndexOf_eq_some_of_least
    · rw [occursAt_drop]
      have : s + (j - s) = j := by omega
      rw [this]; exact hj
    · intro k hk
      rw [occursAt_drop]
      exact hleast (s + k) (by omega) (by omega)
  rw [h1]
  simp [Option.map_eq_some']
  omega

theorem indexOfFrom_eq_none_of_absent {hay pat : List Char} {s : Nat}
    (h : ∀ k, s ≤ k → ¬ occursAt pat hay k) :
    indexOfFrom hay pat s = none := by
  unfold indexOfFrom
  have : firstIndexOf (hay.drop s) pat = none := by
    rw [firstIndexOf_none_iff]
    intro k hk
    rw [occursAt_drop] at hk
    exact h (s + k) (by omega) hk
  simp [this]

end Subcalc

namespace Subcalc

/-- C6. For every input text in which the start marker `<<<TAG>>>` has a
first (least-index) occurrence at `i` and the end marker `<<<END>>>` has a
first occurrence `j` at or after the end of the start marker, the extractor
selects exactly the region between those two first occurrences (scanning
left to right, no balanced nesting), and when that region is valid JSON
(its trimmed text parses) the extractor returns the parsed object. -/
theorem C6_extractor_selects_first_block (J : Type)
    (parse : List Char → Except (List Char) J) (text tag : List Char)
    (i j : Nat) (v : J)
    (hi : occursAt (startMarker tag) text i)
    (hileast : ∀ k, k < i → ¬ occursAt (startMarker tag) text k)
    (hj : occursAt endMarker text j)
    (hjge : i + (startMarker tag).length ≤ j)
    (hjleast : ∀ k, i + (startMarker tag).length ≤ k → k < j →
      ¬ occursAt endMarker text k)
    (hp : parse (jsTrim (jsSlice text (i + (startMarker tag).length) j)) =
      Except.ok v) :
    extractTaggedJson J parse text tag = .parsed v := by
  have h1 : firstIndexOf text (startMarker tag) = some i :=
    firstIndexOf_eq_some_of_least hi hileast
  have h2 : indexOfFrom text endMarker (i + (startMarker tag).length) = some j :=
    indexOfFrom_eq_some_of_least hj hjge hjleast
  simp only [extractTaggedJson, h1, h2, hp]

def c6Text : List Char := "<<<T>>>1<<<END>>>".toList

def c6Tag : List Char := "T".toList

def c6Parse : List Char → Except (List Char) Nat := fun s =>
  if s = "1".toList then Except.ok 1 else Except.error []

/-- Witness for C6 at the concrete text `<<<T>>>1<<<END>>>` with a parser
that accepts `1`. -/
theorem C6_extractor_selects_first_block_witness :
    extractTaggedJson Nat c6Parse c6Text c6Tag = .parsed 1 := by
  apply C6_extractor_selects_first_block Nat c6Parse c6Text c6Tag 0 8 1
  · decide
  · intro k hk; exact absurd hk (Nat.not_lt_zero k)
  · decide
  · decide
  · intro k h1 h2
    have hk : k = 7 := by
      have : (startMarker c6Tag).length = 7 := by decide
      omega
    subst hk; decide
  · rfl

/-- C7 counterexample: at the text `<<<T>>> x <<<END>>>` with a failing
parser, the extractor returns the slice with surrounding whitespace
stripped (`"x"`), not the enclosed text verbatim (`" x "`): the claim's
"raw enclosed text verbatim" fails. -/
theorem C7_extractor_raw_not_verbatim_cex :
    extractTaggedJson (List Char)
        (fun _ => Except.error "bad".toList)
        "<<<T>>> x <<<END>>>".toList "T".toList =
      .parseFailed "bad".toList "x".toList ∧
    jsSlice "<<<T>>> x <<<END>>>".toList 7 10 = " x ".toList ∧
    (("x".toList == " x ".toList) = false) := by
  refine ⟨by decide, by decide, by decide⟩

/-- C7 (amended). For every input text the extractor never throws: if the
start marker does not occur, or no end marker occurs after it, it returns
the "not found" result (not an error); and when both markers are present
but the enclosed text fails to parse, it returns a value carrying both the
parse error and the enclosed text with leading and trailing whitespace
removed (`trim` is applied before parsing and the trimmed slice is what is
carried). -/
theorem C7_extractor_total_fallbacks (J : Type)
    (parse : List Char → Except (List Char) J) (text tag : List Char) :
    ((∀ k, ¬ occursAt (startMarker tag) text k) →
      extractTaggedJson J parse text tag = .notFound) ∧
    (∀ i, (occursAt (startMarker tag) text i ∧
        ∀ k, k < i → ¬ occursAt (startMarker tag) text k) →
      (∀ k, i + (startMarker tag).length ≤ k → ¬ occursAt endMarker text k) →
      extractTaggedJson J parse text tag = .notFound) ∧
    (∀ i j e, (occursAt (startMarker tag) text i ∧
        ∀ k, k < i → ¬ occursAt (startMarker tag) text k) →
      (occursAt endMarker text j ∧ i + (startMarker tag).length ≤ j ∧
        ∀ k, i + (startMarker tag).length ≤ k → k < j →
          ¬ occursAt endMarker text k) →
      parse (jsTrim (jsSlice text (i + (startMarker tag).length) j)) =
        Except.error e →
      extractTaggedJson J parse text tag =
        .parseFailed e (jsTrim (jsSlice text (i + (startMarker tag).length) j))) := by
  refine ⟨?_, ?_, ?_⟩
  · intro h
    have h1 : firstIndexOf text (startMarker tag) = none :=
      firstIndexOf_none_iff.mpr h
    simp only [extractTaggedJson, h1]
  · intro i hi hend
    have h1 : firstIndexOf text (startMarker tag) = some i :=
      firstIndexOf_eq_some_of_least hi.1 hi.2
    have h2 : indexOfFrom text endMarker (i + (startMarker tag).length) = none :=
      indexOfFrom_eq_none_of_absent hend
    simp only [extractTaggedJson, h1, h2]
  · intro i j e hi hj hp
    have h1 : firstIndexOf text (startMarker tag) = some i :=
      firstIndexOf_eq_some_of_least hi.1 hi.2
    have h2 : indexOfFrom text endMarker (i + (startMarker tag).length) = some j :=
      indexOfFrom_eq_some_of_least hj.1 hj.2.1 hj.2.2
    simp only [extractTaggedJson, h1, h2, hp]

/-! ## Path model (tools/tools.ts)

POSIX `path.resolve`/`path.relative` (a platform collaborator) are
modelled over segment lists: a path is split on `/`, `.` and empty
segments are dropped, `..` pops.  The workspace root is given as its
normalized absolute segment list, exactly what `resolve(opts.workspace)`
produces in index.ts. -/

/-- Split a string on a separator character (used for `/` and `\n`). -/
def splitOnChar (sep : Char) : List Char → List (List Char)
  | [] => [[]]
  | c :: t =>
    match splitOnChar sep t with
    | [] => [[c]]
    | seg :: rest => if c = sep then [] :: seg :: rest else (c :: seg) :: rest

/-- Join segments with a separator character. -/
def joinChar (sep : Char) : List (List Char) → List Char
  | [] => []
  | [s] => s
  | s :: rest => s ++ sep :: joinChar sep rest

/-- One step of absolute-path normalization: empty and `.` segments are
dropped, `..` pops the last kept segment (a no-op at the root). -/
def normStep (stack : List (List Char)) (seg : List Char) : List (List Char) :=
  if seg = [] || seg = ".".toList then stack
  else if seg = "..".toList then stack.dropLast
  else stack ++ [seg]

/-- Normalize the segments of an absolute path. -/
def normalizeAbs (segs : List (List Char)) : List (List Char) :=
  segs.foldl normStep []

/-- `path.resolve(workspaceRoot, userPath)` with `workspaceRoot` given as
normalized absolute segments. -/
def resolveSegs (root : List (List Char)) (user : List Char) :
    List (List Char) :=
  if user.head? = some '/' then normalizeAbs (splitOnChar '/' user)
  else normalizeAbs (root ++ splitOnChar '/' user)

/-- Length of the longest common segment prefix. -/
def commonPrefixLen : List (List Char) → List (List Char) → Nat
  | a :: as, b :: bs => if a = b then 1 + commonPrefixLen as bs else 0
  | _, _ => 0

/-- `path.relative(fromSegs, toSegs)` as segments: one `..` for every
segment of `fromSegs` beyond the common prefix, then the remainder of
`toSegs`. -/
def relativeSegs (fromSegs toSegs : List (List Char)) : List (List Char) :=
  let c := commonPrefixLen fromSegs toSegs
  List.replicate (fromSegs.length - c) "..".toList ++ toSegs.drop c

/-- `relative(workspaceRoot, abs)` as the joined string the source tests. -/
def relString (root abs : List (List Char)) : List Char :=
  joinChar '/' (relativeSegs root abs)

/-- Shallow embedding of `safePath(workspaceRoot, userPath)`: resolve,
take the relative form, and throw when it starts with or contains `..`. -/
def safePath (root : List (List Char)) (userPath : List Char) :
    Except (List Char) (List (List Char)) :=
  let abs := resolveSegs root userPath
  let rel := relString root abs
  if ("..".toList).isPrefixOf rel || includesSub rel "..".toList then
    Except.error ("Path escapes workspaceRoot: ".toList ++ userPath)
  else
    Except.ok abs

/-! ## Tool factories (tools/tools.ts)

The filesystem (node:fs, a platform collaborator) is modelled as a flat
map from absolute segment paths to file contents; directory creation has
no observable effect on it.  Each `execute` runs inside
`lock.runExclusive`, whose serialization is proved separately on the lock
model; a single call is therefore embedded as its body. -/

inductive Mode | builder | verifier | refactorer
deriving DecidableEq

/-- The filesystem: absolute path segments ↦ file contents. -/
def FSState := List (List (List Char) × List Char)

def fsLookup (fs : FSState) (abs : List (List Char)) : Option (List Char) :=
  (fs.find? (fun e => e.1 = abs)).map (·.2)

def fsInsert (fs : FSState) (abs : List (List Char)) (contents : List Char) :
    FSState :=
  (abs, contents) :: fs.filter (fun e => e.1 ≠ abs)

structure ReadResult where
  bytes : Nat
  truncated : Bool
  contents : List Char
deriving DecidableEq

/-- `fs_read.execute`: no mode guard; path-guarded read with the 200k
default byte limit. -/
def fsReadExecute (root : List (List Char)) (path : List Char)
    (maxBytes : Option Nat) (fs : FSState) :
    Except (List Char) ReadResult :=
  match safePath root path with
  | .error e => .error e
  | .ok abs =>
    match fsLookup fs abs with
    | none => .error "ENOENT".toList
    | some buf =>
      let limit := maxBytes.getD 200000
      .ok ⟨buf.length, decide (buf.length > limit), buf.take limit⟩

/-- `fs_write.execute`: refused outright in verifier mode, then
path-guarded write. -/
def fsWriteExecute (mode : Mode) (root : List (List Char))
    (path contents : List Char) (fs : FSState) :
    Except (List Char) FSState :=
  if mode = .verifier then .error "fs_write not available to verifier".toList
  else
    match safePath root path with
    | .error e => .error e
    | .ok abs => .ok (fsInsert fs abs contents)

structure LineEdit where
  startLine : Nat
  endLine : Nat
  replacement : List Char
deriving DecidableEq

/-- One splice: `lines.splice(startLine-1, endLine-(startLine-1), ...repl)`. -/
def applyEdit (lines : List (List Char)) (e : LineEdit) : List (List Char) :=
  lines.take (e.startLine - 1) ++ splitOnChar '\n' e.replacement ++
    lines.drop e.endLine

/-- `fs_apply_edits.execute`: verifier-mode guard, path guard, then the
edits applied bottom-up (sorted by descending `startLine`). -/
def fsApplyEditsExecute (mode : Mode) (root : List (List Char))
    (path : List Char) (edits : List LineEdit) (fs : FSState) :
    Except (List Char) FSState :=
  if mode = .verifier then
    .error "fs_apply_edits not available to verifier".toList
  else
    match safePath root path with
    | .error e => .error e
    | .ok abs =>
      match fsLookup fs abs with
      | none => .error "ENOENT".toList
      | some src =>
        let lines := splitOnChar '\n' src
        let sorted := edits.mergeSort (fun a b => b.startLine ≤ a.startLine)
        let lines' := sorted.foldl applyEdit lines
        .ok (fsInsert fs abs (joinChar '\n' lines'))

/-- `fs_delete.execute`: verifier-mode guard, path guard, then recursive
force-remove (every file at or under the path). -/
def fsDeleteExecute (mode : Mode) (root : List (List Char))
    (path : List Char) (fs : FSState) : Except (List Char) FSState :=
  if mode = .verifier then .error "fs_delete not available to verifier".toList
  else
    match safePath root path with
    | .error e => .error e
    | .ok abs => .ok (fs.filter (fun e => ¬ abs.isPrefixOf e.1))

/-- `fs_mkdir.execute`: verifier-mode guard and path guard; directory
creation is invisible to the flat file map. -/
def fsMkdirExecute (mode : Mode) (root : List (List Char))
    (path : List Char) (fs : FSState) : Except (List Char) FSState :=
  if mode = .verifier then .error "fs_mkdir not available to verifier".toList
  else
    match safePath root path with
    | .error e => .error e
    | .ok _ => .ok fs

/-- `fs_stat.execute`: no mode guard; path-guarded stat. -/
def fsStatExecute (root : List (List Char)) (path : List Char)
    (fs : FSState) : Except (List Char) Nat :=
  match safePath root path with
  | .error e => .error e
  | .ok abs =>
    match fsLookup fs abs with
    | none => .error "ENOENT".toList
    | some buf => .ok buf.length

/-- The keys of the object `createCommonTools` returns. -/
def commonToolNames : List (List Char) :=
  ["fs_read".toList, "fs_write".toList, "fs_apply_edits".toList,
   "fs_delete".toList, "fs_mkdir".toList, "fs_glob".toList,
   "fs_stat".toList, "cmd_run".toList]

/-- The four keys the destructuring in `createVerifierTools` removes. -/
def verifierRemovedNames : List (List Char) :=
  ["fs_write".toList, "fs_delete".toList, "fs_apply_edits".toList,
   "fs_mkdir".toList]

/-- The keys of the object `createVerifierTools` returns (`...rest` after
destructuring away the four mutating tools). -/
def verifierToolNames : List (List Char) :=
  commonToolNames.filter (fun n => ¬ n ∈ verifierRemovedNames)

theorem includesSub_of_isPrefixOf {s pat : List Char}
    (h : pat.isPrefixOf s = true) : includesSub s pat = true := by
  have h0 : firstIndexOf s pat = some 0 := by
    unfold firstIndexOf; simp [h]
  simp [includesSub, h0]

theorem commonPrefixLen_le_left (a b : List (List Char)) :
    commonPrefixLen a b ≤ a.length := by
  induction a generalizing b with
  | nil => simp [commonPrefixLen]
  | cons x xs ih =>
      cases b with
      | nil => simp [commonPrefixLen]
      | cons y ys =>
          unfold commonPrefixLen
          by_cases hxy : x = y
          · subst hxy
            rw [if_pos rfl]
            simp only [List.length_cons]
            have := ih ys
            omega
          · simp [hxy]

theorem prefix_of_commonPrefixLen_eq {a b : List (List Char)}
    (h : commonPrefixLen a b = a.length) : a <+: b := by
  induction a generalizing b with
  | nil => exact List.nil_prefix
  | cons x xs ih =>
      cases b with
      | nil => simp [commonPrefixLen] at h
      | cons y ys =>
          unfold commonPrefixLen at h
          by_cases hxy : x = y
          · subst hxy
            rw [if_pos rfl] at h
            simp only [List.length_cons] at h
            obtain ⟨t, ht⟩ := ih (b := ys) (by omega)
            exact ⟨t, by simp [← ht]⟩
          · simp [hxy] at h

theorem isPrefixOf_joinChar_dotdot (l : List (List Char)) :
    ("..".toList).isPrefixOf (joinChar '/' ("..".toList :: l)) = true := by
  cases l with
  | nil =>
      simp [joinChar, List.isPrefixOf_iff_prefix]
  | cons s rest =>
      show ("..".toList).isPrefixOf ("..".toList ++ '/' :: joinChar '/' (s :: rest)) = true
      simp [List.isPrefixOf_iff_prefix]

theorem safePath_error_of_not_inside {root : List (List Char)}
    {user : List Char} (h : ¬ root <+: resolveSegs root user) :
    safePath root user =
      Except.error ("Path escapes workspaceRoot: ".toList ++ user) := by
  have hlt : commonPrefixLen root (resolveSegs root user) < root.length := by
    have hle := commonPrefixLen_le_left root (resolveSegs root user)
    rcases Nat.lt_or_ge (commonPrefixLen root (resolveSegs root user)) root.length with hl | hg
    · exact hl
    · exact absurd (prefix_of_commonPrefixLen_eq (Nat.le_antisymm hle hg)) h
  have hk : root.length - commonPrefixLen root (resolveSegs root user) =
      (root.length - commonPrefixLen root (resolveSegs root user) - 1) + 1 := by
    omega
  have hrel : ∃ l, relativeSegs root (resolveSegs root user) = "..".toList :: l := by
    simp only [relativeSegs]
    rw [hk, List.replicate_succ]
    exact ⟨_, rfl⟩
  obtain ⟨l, hl⟩ := hrel
  have hpre : ("..".toList).isPrefixOf (relString root (resolveSegs root user)) = true := by
    unfold relString
    rw [hl]
    exact isPrefixOf_joinChar_dotdot l
  unfold safePath
  simp only [hpre, Bool.true_or, if_pos]

/-- C8. The Verifier's capability set contains no mutating operation:
`fs_write`, `fs_delete`, `fs_apply_edits` and `fs_mkdir` are exactly the
keys removed from the tool object handed to the Verifier (the read-only
tools all remain), and in addition every mutating tool's `execute` raises
an error when invoked in verifier mode, for any arguments and any
filesystem, so a mutation attempt by the Verifier fails as an error on
that single capability call. -/
theorem C8_verifier_capability_boundary :
    ("fs_write".toList ∉ verifierToolNames ∧
     "fs_delete".toList ∉ verifierToolNames ∧
     "fs_apply_edits".toList ∉ verifierToolNames ∧
     "fs_mkdir".toList ∉ verifierToolNames ∧
     "fs_read".toList ∈ verifierToolNames ∧
     "fs_glob".toList ∈ verifierToolNames ∧
     "fs_stat".toList ∈ verifierToolNames ∧
     "cmd_run".toList ∈ verifierToolNames) ∧
    (∀ root path contents fs,
      fsWriteExecute .verifier root path contents fs =
        Except.error "fs_write not available to verifier".toList) ∧
    (∀ root path edits fs,
      fsApplyEditsExecute .verifier root path edits fs =
        Except.error "fs_apply_edits not available to verifier".toList) ∧
    (∀ root path fs,
      fsDeleteExecute .verifier root path fs =
        Except.error "fs_delete not available to verifier".toList) ∧
    (∀ root path fs,
      fsMkdirExecute .verifier root path fs =
        Except.error "fs_mkdir not available to verifier".toList) := by
  refine ⟨by decide, ?_, ?_, ?_, ?_⟩
  · intro root path contents fs; rfl
  · intro root path edits fs; rfl
  · intro root path fs; rfl
  · intro root path fs; rfl

def c10Root : List (List Char) := ["ws".toList]

def c10Msg : List Char := "Path escapes workspaceRoot: ".toList ++ "a..b".toList

/-- C10. The path guard rejects every path that resolves outside the
workspace root, and more broadly every path whose resolved relative form
contains the substring `..` anywhere; in particular the legitimate
in-workspace path `a..b` (which resolves to a location strictly inside
the root) is refused with an error, by `safePath` itself and by every
path-taking filesystem capability built on it. -/
theorem C10_safePath_rejects_inside_dotdot :
    (∀ root user, ¬ root <+: resolveSegs root user →
      safePath root user =
        Except.error ("Path escapes workspaceRoot: ".toList ++ user)) ∧
    (∀ root user,
      includesSub (relString root (resolveSegs root user)) "..".toList = true →
      safePath root user =
        Except.error ("Path escapes workspaceRoot: ".toList ++ user)) ∧
    (resolveSegs c10Root "a..b".toList = c10Root ++ ["a..b".toList] ∧
     safePath c10Root "a..b".toList = Except.error c10Msg ∧
     fsReadExecute c10Root "a..b".toList none [] = Except.error c10Msg ∧
     fsWriteExecute .builder c10Root "a..b".toList [] [] = Except.error c10Msg ∧
     fsApplyEditsExecute .builder c10Root "a..b".toList [] [] =
       Except.error c10Msg ∧
     fsDeleteExecute .builder c10Root "a..b".toList [] = Except.error c10Msg ∧
     fsMkdirExecute .builder c10Root "a..b".toList [] = Except.error c10Msg ∧
     fsStatExecute c10Root "a..b".toList [] = Except.error c10Msg) := by
  refine ⟨?_, ?_, ?_⟩
  · intro root user h
    exact safePath_error_of_not_inside h
  · intro root user h
    unfold safePath
    simp only [h, Bool.or_true, if_pos]
  · refine ⟨by rfl, by rfl, by rfl, by rfl, by rfl, by rfl, by rfl, by rfl⟩

/-! ## Lock (tools/mutex.ts)

`SimpleMutex.runExclusive` chains continuations: a caller synchronously
swaps `this.p` for a fresh promise (so submission order is call order),
awaits the previous promise, runs its operation, and resolves its own
promise in `finally` — on normal return and on a thrown error alike.
The embedding makes each submitted operation a list of atomic effects on
the shared state, optionally throwing after a prefix of them
(`failsAfter`).  A task may start only after its predecessor has
released; a nondeterministic scheduler picks which task advances by one
micro-step.  The theorem shows every completed schedule produces the
strictly sequential, submission-ordered execution. -/

inductive TaskPhase where
  | waiting
  | running (j : Nat)
  | done
deriving DecidableEq

/-- One operation passed to `runExclusive`: its atomic effects on the
shared state, and optionally the number of effects after which it throws. -/
structure LockOp (σ : Type) where
  effects : List (σ → σ)
  failsAfter : Option Nat

/-- Number of effects the operation performs before finishing (thrown
errors cut the list short). -/
def stopAt {σ : Type} (op : LockOp σ) : Nat :=
  match op.failsAfter with
  | none => op.effects.length
  | some k => min k op.effects.length

def applyPartial {σ : Type} (op : LockOp σ) (j : Nat) (s : σ) : σ :=
  (op.effects.take j).foldl (fun s f => f s) s

/-- The full effect of one operation run alone. -/
def seqApply {σ : Type} (op : LockOp σ) (s : σ) : σ :=
  applyPartial op (stopAt op) s

/-- Strictly sequential execution in submission order. -/
def seqRun {σ : Type} (ops : List (LockOp σ)) (s : σ) : σ :=
  ops.foldl (fun s op => seqApply op s) s

structure LockSys (σ : Type) where
  shared : σ
  phases : List TaskPhase

def initLockSys {σ : Type} (ops : List (LockOp σ)) (s0 : σ) : LockSys σ :=
  ⟨s0, List.replicate ops.length .waiting⟩

/-- Task `i`'s `await prev` has resolved: its predecessor's `finally`
ran (the first task awaits an already-resolved promise). -/
def prevReleased (ph : List TaskPhase) (i : Nat) : Bool :=
  match i with
  | 0 => true
  | k + 1 => ph.getD k .waiting == .done

/-- One scheduler micro-step: task `i` (if it exists, is not done, and
its predecessor has released) acquires, performs its next effect, throws
at its failure point, or finishes — finishing and throwing both release. -/
def lockStep {σ : Type} (ops : List (LockOp σ)) (sys : LockSys σ) (i : Nat) :
    LockSys σ :=
  match ops[i]? with
  | none => sys
  | some op =>
    if prevReleased sys.phases i then
      match sys.phases.getD i .done with
      | .waiting => { sys with phases := sys.phases.set i (.running 0) }
      | .running j =>
        if j = stopAt op then { sys with phases := sys.phases.set i .done }
        else
          match op.effects[j]? with
          | some f =>
            { shared := f sys.shared, phases := sys.phases.set i (.running (j + 1)) }
          | none => { sys with phases := sys.phases.set i .done }
      | .done => sys
    else sys

def runLock {σ : Type} (ops : List (LockOp σ)) (sys : LockSys σ) :
    List Nat → LockSys σ
  | [] => sys
  | c :: cs => runLock ops (lockStep ops sys c) cs

def allDone {σ : Type} (sys : LockSys σ) : Bool :=
  sys.phases.all (fun p => p == TaskPhase.done)

/-- Canonical phase list: `d` finished tasks, the active task (if any) in
phase `st`, all later tasks waiting. -/
def canonPhases (n d : Nat) (st : TaskPhase) : List TaskPhase :=
  List.replicate d .done ++
    (if d = n then [] else st :: List.replicate (n - d - 1) .waiting)

def sharedSpec {σ : Type} (ops : List (LockOp σ)) (s0 : σ) (d : Nat)
    (st : TaskPhase) : σ :=
  match st, ops[d]? with
  | .running j, some op => applyPartial op j (seqRun (ops.take d) s0)
  | _, _ => seqRun (ops.take d) s0

def canonSys {σ : Type} (ops : List (LockOp σ)) (s0 : σ) (d : Nat)
    (st : TaskPhase) : LockSys σ :=
  ⟨sharedSpec ops s0 d st, canonPhases ops.length d st⟩

def stOk {σ : Type} (op : LockOp σ) : TaskPhase → Prop
  | .waiting => True
  | .running j => j ≤ stopAt op
  | .done => False

/-- Reachable-state invariant of the lock: tasks complete strictly in
submission order and the shared state is always the sequential prefix. -/
def lockInv {σ : Type} (ops : List (LockOp σ)) (s0 : σ) (sys : LockSys σ) :
    Prop :=
  ∃ d st, d ≤ ops.length ∧
    (∀ op, ops[d]? = some op → stOk op st) ∧
    (d = ops.length → st = .waiting) ∧
    sys = canonSys ops s0 d st

theorem getD_replicate_of_lt {α : Type} (k i : Nat) (x dflt : α) (h : i < k) :
    (List.replicate k x).getD i dflt = x := by
  rw [List.getD_eq_getElem?_getD, List.getElem?_replicate]
  simp [h]

theorem getD_replicate_self {α : Type} (k i : Nat) (x : α) :
    (List.replicate k x).getD i x = x := by
  rw [List.getD_eq_getElem?_getD, List.getElem?_replicate]
  split <;> simp

theorem canonPhases_getD_lt (n d : Nat) (st : TaskPhase) (i : Nat)
    (dflt : TaskPhase) (h : i < d) :
    (canonPhases n d st).getD i dflt = .done := by
  unfold canonPhases
  rw [List.getD_append _ _ dflt i (by simp only [List.length_replicate]; omega)]
  exact getD_replicate_of_lt d i _ dflt h

theorem canonPhases_getD_self (n d : Nat) (st : TaskPhase)
    (dflt : TaskPhase) (h : d < n) :
    (canonPhases n d st).getD d dflt = st := by
  unfold canonPhases
  rw [if_neg (by omega)]
  rw [List.getD_append_right _ _ dflt d (by simp only [List.length_replicate]; omega)]
  simp

theorem canonPhases_getD_gt (n d : Nat) (st : TaskPhase) (i : Nat)
    (h : d < i) :
    (canonPhases n d st).getD i .waiting = .waiting := by
  unfold canonPhases
  by_cases hdn : d = n
  · subst hdn
    rw [if_pos rfl, List.append_nil]
    rw [List.getD_eq_getElem?_getD, List.getElem?_replicate]
    split
    · omega
    · rfl
  · rw [if_neg hdn]
    rw [List.getD_append_right _ _ _ i (by simp only [List.length_replicate]; omega)]
    simp only [List.length_replicate]
    have hi : i - d = (i - d - 1) + 1 := by omega
    rw [hi]
    show (List.replicate (n - d - 1) TaskPhase.waiting).getD (i - d - 1) .waiting = .waiting
    exact getD_replicate_self _ _ _

theorem canonPhases_set_self (n d : Nat) (st x : TaskPhase) (h : d < n) :
    (canonPhases n d st).set d x = canonPhases n d x := by
  unfold canonPhases
  rw [if_neg (by omega), if_neg (by omega)]
  rw [List.set_append_right _ _ (by simp only [List.length_replicate]; omega)]
  simp

theorem canonPhases_complete (n d : Nat) (st : TaskPhase) (h : d < n) :
    (canonPhases n d st).set d .done = canonPhases n (d + 1) .waiting := by
  unfold canonPhases
  rw [if_neg (by omega)]
  rw [List.set_append_right _ _ (by simp only [List.length_replicate]; omega)]
  simp only [List.length_replicate, Nat.sub_self, List.set_cons_zero]
  rw [List.replicate_succ' d TaskPhase.done, List.append_assoc]
  by_cases hdn : d + 1 = n
  · rw [if_pos hdn]
    have : n - d - 1 = 0 := by omega
    rw [this]
    rfl
  · rw [if_neg hdn]
    have : n - d - 1 = (n - (d + 1) - 1) + 1 := by omega
    rw [this, List.replicate_succ]
    rfl

theorem applyPartial_zero {σ : Type} (op : LockOp σ) (s : σ) :
    applyPartial op 0 s = s := rfl

theorem applyPartial_succ {σ : Type} (op : LockOp σ) (j : Nat) (s : σ)
    (f : σ → σ) (hf : op.effects[j]? = some f) :
    applyPartial op (j + 1) s = f (applyPartial op j s) := by
  unfold applyPartial
  rw [List.take_succ, hf]
  rw [List.foldl_append]
  rfl

theorem seqRun_take_succ {σ : Type} (ops : List (LockOp σ)) (s0 : σ)
    (d : Nat) (op : LockOp σ) (hop : ops[d]? = some op) :
    seqRun (ops.take (d + 1)) s0 = seqApply op (seqRun (ops.take d) s0) := by
  unfold seqRun
  rw [List.take_succ, hop]
  rw [List.foldl_append]
  rfl

theorem lockStep_oob {σ : Type} (ops : List (LockOp σ)) (sys : LockSys σ)
    (i : Nat) (h : ops.length ≤ i) : lockStep ops sys i = sys := by
  unfold lockStep
  rw [List.getElem?_eq_none h]

theorem lockStep_past {σ : Type} (ops : List (LockOp σ)) (s0 : σ)
    (d : Nat) (st : TaskPhase) (i : Nat) (hid : i < d) :
    lockStep ops (canonSys ops s0 d st) i = canonSys ops s0 d st := by
  unfold lockStep
  cases hops : ops[i]? with
  | none => rfl
  | some op =>
    have hph : (canonSys ops s0 d st).phases.getD i .done = .done := by
      show (canonPhases ops.length d st).getD i .done = .done
      exact canonPhases_getD_lt _ _ _ _ _ hid
    rw [hph]
    exact ite_self _

theorem lockStep_blocked {σ : Type} (ops : List (LockOp σ)) (s0 : σ)
    (d : Nat) (st : TaskPhase) (i : Nat) (hdi : d < i) (hd : d < ops.length)
    (hstok : ∀ op, ops[d]? = some op → stOk op st) :
    lockStep ops (canonSys ops s0 d st) i = canonSys ops s0 d st := by
  obtain ⟨op, hop⟩ : ∃ op, ops[d]? = some op :=
    ⟨ops[d], List.getElem?_eq_getElem hd⟩
  have hst := hstok op hop
  unfold lockStep
  cases hops : ops[i]? with
  | none => rfl
  | some opi =>
    have hpr : prevReleased (canonSys ops s0 d st).phases i = false := by
      cases i with
      | zero => omega
      | succ k =>
        show ((canonPhases ops.length d st).getD k .waiting == .done) = false
        by_cases hkd : k = d
        · subst hkd
          rw [canonPhases_getD_self _ _ _ _ hd]
          cases st with
          | waiting => rfl
          | running j => rfl
          | done => exact absurd hst (by simp [stOk])
        · have hdk : d < k := by omega
          rw [canonPhases_getD_gt _ _ _ _ hdk]
          rfl
    rw [hpr]
    rfl

theorem prevReleased_canon {σ : Type} (ops : List (LockOp σ)) (s0 : σ)
    (d : Nat) (st : TaskPhase) :
    prevReleased (canonSys ops s0 d st).phases d = true := by
  cases d with
  | zero => rfl
  | succ k =>
    show ((canonPhases ops.length (k + 1) st).getD k .waiting == .done) = true
    rw [canonPhases_getD_lt _ _ _ _ _ (Nat.lt_succ_self k)]
    rfl

theorem lockStep_acquire {σ : Type} (ops : List (LockOp σ)) (s0 : σ)
    (d : Nat) (hd : d < ops.length) :
    lockStep ops (canonSys ops s0 d .waiting) d =
      canonSys ops s0 d (.running 0) := by
  obtain ⟨op, hop⟩ : ∃ op, ops[d]? = some op :=
    ⟨ops[d], List.getElem?_eq_getElem hd⟩
  have hph : (canonSys ops s0 d .waiting).phases.getD d .done = .waiting := by
    show (canonPhases ops.length d .waiting).getD d .done = .waiting
    exact canonPhases_getD_self _ _ _ _ hd
  have hsh : sharedSpec ops s0 d (.running 0) = sharedSpec ops s0 d .waiting := by
    simp [sharedSpec, hop, applyPartial_zero]
  unfold lockStep
  rw [hop, prevReleased_canon, hph]
  show LockSys.mk (sharedSpec ops s0 d .waiting)
      ((canonPhases ops.length d .waiting).set d (.running 0)) =
    canonSys ops s0 d (.running 0)
  rw [canonPhases_set_self _ _ _ _ hd, ← hsh]
  rfl

theorem lockStep_effect {σ : Type} (ops : List (LockOp σ)) (s0 : σ)
    (d j : Nat) (op : LockOp σ) (hop : ops[d]? = some op)
    (hd : d < ops.length) (hj : j < stopAt op) :
    lockStep ops (canonSys ops s0 d (.running j)) d =
      canonSys ops s0 d (.running (j + 1)) := by
  have hjlen : j < op.effects.length := by
    have : stopAt op ≤ op.effects.length := by
      unfold stopAt; cases op.failsAfter <;> simp
    omega
  obtain ⟨f, hf⟩ : ∃ f, op.effects[j]? = some f :=
    ⟨op.effects[j], List.getElem?_eq_getElem hjlen⟩
  have hph : (canonSys ops s0 d (.running j)).phases.getD d .done = .running j := by
    show (canonPhases ops.length d (.running j)).getD d .done = .running j
    exact canonPhases_getD_self _ _ _ _ hd
  have hsh : sharedSpec ops s0 d (.running (j + 1)) =
      f (sharedSpec ops s0 d (.running j)) := by
    simp only [sharedSpec, hop]
    exact applyPartial_succ op j _ f hf
  have hne : j ≠ stopAt op := by omega
  unfold lockStep
  rw [hop, prevReleased_canon, hph]
  show (if j = stopAt op then
      LockSys.mk (sharedSpec ops s0 d (.running j))
        ((canonPhases ops.length d (.running j)).set d .done)
    else
      match op.effects[j]? with
      | some f =>
        LockSys.mk (f (sharedSpec ops s0 d (.running j)))
          ((canonPhases ops.length d (.running j)).set d (.running (j + 1)))
      | none =>
        LockSys.mk (sharedSpec ops s0 d (.running j))
          ((canonPhases ops.length d (.running j)).set d .done)) =
    canonSys ops s0 d (.running (j + 1))
  rw [if_neg hne, hf]
  show LockSys.mk (f (sharedSpec ops s0 d (.running j)))
      ((canonPhases ops.length d (.running j)).set d (.running (j + 1))) =
    canonSys ops s0 d (.running (j + 1))
  rw [canonPhases_set_self _ _ _ _ hd, ← hsh]
  rfl

theorem lockStep_finish {σ : Type} (ops : List (LockOp σ)) (s0 : σ)
    (d : Nat) (op : LockOp σ) (hop : ops[d]? = some op)
    (hd : d < ops.length) :
    lockStep ops (canonSys ops s0 d (.running (stopAt op))) d =
      canonSys ops s0 (d + 1) .waiting := by
  have hph : (canonSys ops s0 d (.running (stopAt op))).phases.getD d .done =
      .running (stopAt op) := by
    show (canonPhases ops.length d (.running (stopAt op))).getD d .done = _
    exact canonPhases_getD_self _ _ _ _ hd
  have hsh : sharedSpec ops s0 (d + 1) .waiting =
      sharedSpec ops s0 d (.running (stopAt op)) := by
    simp only [sharedSpec, hop]
    rw [seqRun_take_succ ops s0 d op hop]
    rfl
  unfold lockStep
  rw [hop, prevReleased_canon, hph]
  show (if stopAt op = stopAt op then
      LockSys.mk (sharedSpec ops s0 d (.running (stopAt op)))
        ((canonPhases ops.length d (.running (stopAt op))).set d .done)
    else
      match op.effects[stopAt op]? with
      | some f =>
        LockSys.mk (f (sharedSpec ops s0 d (.running (stopAt op))))
          ((canonPhases ops.length d (.running (stopAt op))).set d
            (.running (stopAt op + 1)))
      | none =>
        LockSys.mk (sharedSpec ops s0 d (.running (stopAt op)))
          ((canonPhases ops.length d (.running (stopAt op))).set d .done)) =
    canonSys ops s0 (d + 1) .waiting
  rw [if_pos rfl]
  rw [canonPhases_complete _ _ _ hd, ← hsh]
  rfl

theorem initLockSys_canon {σ : Type} (ops : List (LockOp σ)) (s0 : σ) :
    initLockSys ops s0 = canonSys ops s0 0 .waiting := by
  have h1 : sharedSpec ops s0 0 TaskPhase.waiting = s0 := by
    unfold sharedSpec
    cases ops[0]? <;> rfl
  have h2 : canonPhases ops.length 0 .waiting =
      List.replicate ops.length .waiting := by
    unfold canonPhases
    cases hn : ops.length with
    | zero => simp
    | succ k =>
        rw [if_neg (by omega)]
        simp [List.replicate_succ]
  show LockSys.mk s0 (List.replicate ops.length .waiting) =
    LockSys.mk (sharedSpec ops s0 0 .waiting) (canonPhases ops.length 0 .waiting)
  rw [h1, h2]

theorem lockInv_step {σ : Type} (ops : List (LockOp σ)) (s0 : σ)
    (sys : LockSys σ) (i : Nat) (h : lockInv ops s0 sys) :
    lockInv ops s0 (lockStep ops sys i) := by
  obtain ⟨d, st, hdle, hstok, hdn, rfl⟩ := h
  by_cases hin : i < ops.length
  · rcases Nat.lt_trichotomy i d with hid | rfl | hdi
    · rw [lockStep_past _ _ _ _ _ hid]
      exact ⟨d, st, hdle, hstok, hdn, rfl⟩
    · have hdlt : i < ops.length := hin
      obtain ⟨op, hop⟩ : ∃ op, ops[i]? = some op :=
        ⟨ops[i], List.getElem?_eq_getElem hdlt⟩
      have hst := hstok op hop
      cases st with
      | waiting =>
          rw [lockStep_acquire _ _ _ hdlt]
          refine ⟨i, .running 0, hdle, ?_, ?_, rfl⟩
          · intro op' hop'
            rw [hop] at hop'
            cases hop'
            exact Nat.zero_le _
          · intro hieq; omega
      | running j =>
          have hjle : j ≤ stopAt op := hst
          by_cases hj : j = stopAt op
          · subst hj
            rw [lockStep_finish _ _ _ _ hop hdlt]
            refine ⟨i + 1, .waiting, by omega, ?_, ?_, rfl⟩
            · intro op' _; trivial
            · intro _; rfl
          · rw [lockStep_effect _ _ _ _ _ hop hdlt (by omega)]
            refine ⟨i, .running (j + 1), hdle, ?_, ?_, rfl⟩
            · intro op' hop'
              rw [hop] at hop'
              cases hop'
              show j + 1 ≤ stopAt op
              omega
            · intro hieq; omega
      | done => exact absurd hst (by simp [stOk])
    · have hdlt : d < ops.length := by omega
      rw [lockStep_blocked _ _ _ _ _ hdi hdlt hstok]
      exact ⟨d, st, hdle, hstok, hdn, rfl⟩
  · rw [lockStep_oob _ _ _ (by omega)]
    exact ⟨d, st, hdle, hstok, hdn, rfl⟩

theorem lockInv_run {σ : Type} (ops : List (LockOp σ)) (s0 : σ)
    (cs : List Nat) (sys : LockSys σ) (h : lockInv ops s0 sys) :
    lockInv ops s0 (runLock ops sys cs) := by
  induction cs generalizing sys with
  | nil => exact h
  | cons c t ih => exact ih _ (lockInv_step _ _ _ _ h)

theorem shared_of_allDone {σ : Type} (ops : List (LockOp σ)) (s0 : σ)
    (sys : LockSys σ) (hinv : lockInv ops s0 sys)
    (hall : allDone sys = true) : sys.shared = seqRun ops s0 := by
  obtain ⟨d, st, hdle, hstok, hdn, rfl⟩ := hinv
  by_cases hd : d = ops.length
  · subst hd
    have hw : st = .waiting := hdn rfl
    subst hw
    show sharedSpec ops s0 ops.length .waiting = seqRun ops s0
    have htake : ops.take ops.length = ops := List.take_length ops
    unfold sharedSpec
    cases ops[ops.length]? <;> rw [htake]
  · exfalso
    have hdlt : d < ops.length := by omega
    obtain ⟨op, hop⟩ : ∃ op, ops[d]? = some op :=
      ⟨ops[d], List.getElem?_eq_getElem hdlt⟩
    have hst := hstok op hop
    have hmem : st ∈ (canonSys ops s0 d st).phases := by
      show st ∈ canonPhases ops.length d st
      unfold canonPhases
      rw [if_neg (by omega)]
      exact List.mem_append_right _ (List.mem_cons_self _ _)
    have hbeq := (List.all_eq_true.mp hall) st hmem
    have hsteq : st = .done := by
      cases st with
      | waiting => exact absurd hbeq (by simp)
      | running j => exact absurd hbeq (by simp)
      | done => rfl
    rw [hsteq] at hst
    exact hst

theorem runLock_append {σ : Type} (ops : List (LockOp σ)) (sys : LockSys σ)
    (l1 l2 : List Nat) :
    runLock ops sys (l1 ++ l2) = runLock ops (runLock ops sys l1) l2 := by
  induction l1 generalizing sys with
  | nil => rfl
  | cons c t ih => exact ih _

theorem runLock_replicate_noop {σ : Type} (ops : List (LockOp σ))
    (sys : LockSys σ) (i k : Nat) (h : lockStep ops sys i = sys) :
    runLock ops sys (List.replicate k i) = sys := by
  induction k with
  | zero => rfl
  | succ k ih =>
      show runLock ops (lockStep ops sys i) (List.replicate k i) = sys
      rw [h]
      exact ih

theorem runSegment {σ : Type} (ops : List (LockOp σ)) (s0 : σ) (d : Nat)
    (op : LockOp σ) (hop : ops[d]? = some op) (hd : d < ops.length) :
    ∀ k j, j + k = stopAt op →
      runLock ops (canonSys ops s0 d (.running j)) (List.replicate (k + 1) d) =
        canonSys ops s0 (d + 1) .waiting := by
  intro k
  induction k with
  | zero =>
      intro j hj
      have hjs : j = stopAt op := by omega
      subst hjs
      show runLock ops (lockStep ops (canonSys ops s0 d (.running (stopAt op))) d) [] =
        canonSys ops s0 (d + 1) .waiting
      rw [lockStep_finish _ _ _ _ hop hd]
      rfl
  | succ k ih =>
      intro j hj
      have hjlt : j < stopAt op := by omega
      show runLock ops (lockStep ops (canonSys ops s0 d (.running j)) d)
        (List.replicate (k + 1) d) = canonSys ops s0 (d + 1) .waiting
      rw [lockStep_effect _ _ _ _ _ hop hd hjlt]
      exact ih (j + 1) (by omega)

theorem runFull {σ : Type} (ops : List (LockOp σ)) (s0 : σ) (d : Nat)
    (hd : d < ops.length) :
    runLock ops (canonSys ops s0 d .waiting)
      (List.replicate (2 + ((ops[d]?.map (fun op => op.effects.length)).getD 0)) d) =
      canonSys ops s0 (d + 1) .waiting := by
  obtain ⟨op, hop⟩ : ∃ op, ops[d]? = some op :=
    ⟨ops[d], List.getElem?_eq_getElem hd⟩
  rw [hop]
  have hstle : stopAt op ≤ op.effects.length := by
    unfold stopAt; cases op.failsAfter <;> simp
  have harith : 2 + (some op |>.map (fun op => op.effects.length)).getD 0 =
      1 + ((stopAt op + 1) + (op.effects.length - stopAt op)) := by
    simp only [Option.map_some', Option.getD_some]
    omega
  rw [harith, List.replicate_add, List.replicate_add, runLock_append,
    runLock_append]
  have h1 : runLock ops (canonSys ops s0 d .waiting) (List.replicate 1 d) =
      canonSys ops s0 d (.running 0) := by
    show runLock ops (lockStep ops (canonSys ops s0 d .waiting) d) [] = _
    rw [lockStep_acquire _ _ _ hd]
    rfl
  rw [h1]
  rw [runSegment ops s0 d op hop hd (stopAt op) 0 (by omega)]
  exact runLock_replicate_noop _ _ _ _ (lockStep_past ops s0 (d + 1) .waiting d (by omega))

/-- A schedule that drives every task to completion: for each task in
submission order, enough micro-steps to acquire, run all its effects (or
hit its throw point) and release. -/
def schedFrom {σ : Type} (ops : List (LockOp σ)) : Nat → Nat → List Nat
  | _, 0 => []
  | d, k + 1 =>
    List.replicate (2 + ((ops[d]?.map (fun op => op.effects.length)).getD 0)) d ++
      schedFrom ops (d + 1) k

def canonSched {σ : Type} (ops : List (LockOp σ)) : List Nat :=
  schedFrom ops 0 ops.length

theorem schedFrom_complete {σ : Type} (ops : List (LockOp σ)) (s0 : σ) :
    ∀ k d, d + k = ops.length →
      runLock ops (canonSys ops s0 d .waiting) (schedFrom ops d k) =
        canonSys ops s0 ops.length .waiting := by
  intro k
  induction k with
  | zero =>
      intro d hdk
      have hdeq : d = ops.length := by omega
      subst hdeq
      rfl
  | succ k ih =>
      intro d hdk
      have hd : d < ops.length := by omega
      show runLock ops (canonSys ops s0 d .waiting)
        (List.replicate (2 + ((ops[d]?.map (fun op => op.effects.length)).getD 0)) d ++
          schedFrom ops (d + 1) k) = canonSys ops s0 ops.length .waiting
      rw [runLock_append, runFull ops s0 d hd]
      exact ih (d + 1) (by omega)

theorem allDone_final {σ : Type} (ops : List (LockOp σ)) (s0 : σ) :
    allDone (canonSys ops s0 ops.length .waiting) = true := by
  show (canonPhases ops.length ops.length .waiting).all
    (fun p => p == TaskPhase.done) = true
  unfold canonPhases
  rw [if_pos rfl, List.append_nil]
  rw [List.all_eq_true]
  intro x hx
  rw [List.eq_of_mem_replicate hx]
  rfl

/-- C1. `runExclusive`'s chained continuations serialize concurrent
callers: for every list of submitted operations (each a list of atomic
effects that may throw partway) and every scheduler interleaving, the
reachable state always has the tasks completed strictly in submission
order with the shared state equal to the sequential prefix (`lockInv`);
when an interleaving has completed every task, the shared state is
exactly the strictly sequential, submission-ordered execution (so each
operation's effects are fully visible before the next begins and no two
operations' effects interleave); and the canonical schedule completes
every operation even when some throw — an error still releases the lock
for the next queued waiter. -/
theorem C1_runExclusive_serializes (σ : Type) (ops : List (LockOp σ))
    (s0 : σ) (cs : List Nat)
    (h : allDone (runLock ops (initLockSys ops s0) cs) = true) :
    lockInv ops s0 (runLock ops (initLockSys ops s0) cs) ∧
    (runLock ops (initLockSys ops s0) cs).shared = seqRun ops s0 ∧
    allDone (runLock ops (initLockSys ops s0) (canonSched ops)) = true := by
  have hinv : lockInv ops s0 (runLock ops (initLockSys ops s0) cs) := by
    apply lockInv_run
    exact ⟨0, .waiting, Nat.zero_le _, fun op _ => trivial, fun _ => rfl,
      initLockSys_canon ops s0⟩
  refine ⟨hinv, shared_of_allDone _ _ _ hinv h, ?_⟩
  rw [initLockSys_canon]
  unfold canonSched
  rw [schedFrom_complete ops s0 ops.length 0 (by omega)]
  exact allDone_final ops s0

/-- Two logging operations: the first appends `1` then throws (its second
effect, appending `2`, is cut off); the second appends `3` then `4`. -/
def c1Ops : List (LockOp (List Nat)) :=
  [⟨[fun s => s ++ [1], fun s => s ++ [2]], some 1⟩,
   ⟨[fun s => s ++ [3], fun s => s ++ [4]], none⟩]

def c1Trace : List Nat := [0, 0, 0, 1, 1, 1, 1]

/-- Witness for C1 at two concrete logging operations, the first of which
throws after one effect: the completed interleaving equals the sequential
submission-ordered log, and the second operation still ran. -/
theorem C1_runExclusive_serializes_witness :
    (runLock c1Ops (initLockSys c1Ops []) c1Trace).shared = seqRun c1Ops [] :=
  (C1_runExclusive_serializes (List Nat) c1Ops [] c1Trace (by rfl)).2.1

/-! ## Orchestrator loops (orchestrator.ts)

The three role loops of `runOrchestrator` are embedded as a cooperative
interleaving machine.  Each loop has a program counter naming the `await`
it is suspended at; one step resumes a loop at its suspension point and
runs its synchronous code to the next `await` (or to loop exit) — the
granularity of atomicity in a single-threaded event loop.  The `idle`
counters stand for the loop-top (initially, and on re-entry after the
loop's trailing `await` resolves).  The environment supplies each
`client.prompt` outcome: an error, or a response with the extraction
result already applied (`none` for "no structured block").  `client
.prompt` rejections are NOT caught by the loops; they reject the loop's
promise, which `Promise.allSettled` later absorbs — modelled by the
terminal `failed` counter. -/

inductive Verdict where
  | UNKNOWN | PASS | FAIL
deriving DecidableEq

/-- The two fields the builder loop reads off its report, after the
`Boolean(... ?? false)` coercions. -/
structure BRep where
  exitCriteriaMet : Bool
  wantsRefactor : Bool
deriving DecidableEq

/-- The fields the verifier loop reads off its report: `verdict` may be
absent, and `blockersText` is the serialized text of its `blockers`
(absent blockers serialize as `[]`). -/
structure VRep where
  verdict : Option Verdict
  refactorRecommended : Bool
  blockersText : List Char
deriving DecidableEq

structure BuilderSub where
  lastReport : Option (BRep ⊕ List Char)
  exitCriteriaMet : Bool
  wantsRefactor : Bool
deriving DecidableEq

structure VerifierSub where
  lastReport : Option (VRep ⊕ List Char)
  verdict : Verdict
  blockersText : Option (List Char)
  refactorRecommended : Bool
deriving DecidableEq

structure RefactorerSub where
  lastReport : Option (List Char ⊕ List Char)
  ranCount : Nat
  lastRanAt : Option Nat
deriving DecidableEq

structure SharedState where
  startedAt : Nat
  iteration : Nat
  builder : BuilderSub
  verifier : VerifierSub
  refactorer : RefactorerSub
deriving DecidableEq

/-- The `REFACTOR_SIGNALS` vocabulary. -/
def REFACTOR_SIGNALS : List (List Char) :=
  ["refactor".toList, "solid".toList, "architecture".toList,
   "layering".toList, "hexagonal".toList, "duplication".toList,
   "dead code".toList, "cyclomatic".toList, "complexity".toList,
   "performance".toList, "hot path".toList, "testability".toList]

/-- `looksLikeRefactor`: case-insensitive substring scan of the
serialized blocker text against the signal vocabulary. -/
def looksLikeRefactor (txt : List Char) : Bool :=
  REFACTOR_SIGNALS.any (fun sig => includesSub (txt.map Char.toLower) sig)

inductive BPc where
  | idle | awaitPersist1 | awaitPrompt | awaitPersist2 | finished | failed
deriving DecidableEq

inductive VPc where
  | idle | awaitPrompt | awaitPersist | finished | failed
deriving DecidableEq

inductive RPc where
  | idle | awaitPrompt | awaitPersist | finished | failed
deriving DecidableEq

structure Sys where
  state : SharedState
  trigger : Bool
  aborted : Bool
  bpc : BPc
  vpc : VPc
  rpc : RPc
  maxIterations : Nat
  now : Nat
deriving DecidableEq

inductive BOutcome where
  | err
  | ok (raw : List Char) (rep : Option BRep)
deriving DecidableEq

inductive VOutcome where
  | err
  | ok (raw : List Char) (rep : Option VRep)
deriving DecidableEq

inductive ROutcome where
  | err
  | ok (raw : List Char) (rep : Option (List Char))
deriving DecidableEq

inductive Choice where
  | b (o : BOutcome)
  | v (o : VOutcome)
  | r (o : ROutcome)
deriving DecidableEq

/-- `state.builder.lastReport = report ?? response`, then the coerced
booleans (`?? false`). -/
def builderUpdate (s : SharedState) (raw : List Char) (rep : Option BRep) :
    SharedState :=
  { s with builder :=
      { lastReport := some (match rep with
          | some r => Sum.inl r
          | none => Sum.inr raw),
        exitCriteriaMet := (rep.map (·.exitCriteriaMet)).getD false,
        wantsRefactor := (rep.map (·.wantsRefactor)).getD false } }

/-- The verifier sub-record update: `verdict ?? "UNKNOWN"`, `blockers ??
[]` and the recommended flag ORed with the keyword heuristic. -/
def verifierUpdate (s : SharedState) (raw : List Char) (rep : Option VRep) :
    SharedState :=
  let blockers := (rep.map (·.blockersText)).getD "[]".toList
  { s with verifier :=
      { lastReport := some (match rep with
          | some r => Sum.inl r
          | none => Sum.inr raw),
        verdict := (rep.bind (·.verdict)).getD .UNKNOWN,
        blockersText := some blockers,
        refactorRecommended :=
          ((rep.map (·.refactorRecommended)).getD false) ||
            looksLikeRefactor blockers } }

/-- The refactorer sub-record update: store the report, bump `ranCount`,
stamp `lastRanAt` with the current time. -/
def refactorerUpdate (s : SharedState) (raw : List Char)
    (rep : Option (List Char)) (now : Nat) : SharedState :=
  { s with refactorer :=
      { lastReport := some (match rep with
          | some r => Sum.inl r
          | none => Sum.inr raw),
        ranCount := s.refactorer.ranCount + 1,
        lastRanAt := some now } }

/-- One resumption of the builder loop. -/
def bStep (sys : Sys) (o : BOutcome) : Sys :=
  match sys.bpc with
  | .idle =>
      if sys.aborted || decide (sys.maxIterations ≤ sys.state.iteration) then
        { sys with bpc := .finished }
      else
        { sys with
            state := { sys.state with iteration := sys.state.iteration + 1 },
            bpc := .awaitPersist1 }
  | .awaitPersist1 => { sys with bpc := .awaitPrompt }
  | .awaitPrompt =>
      match o with
      | .err => { sys with bpc := .failed }
      | .ok raw rep =>
          let st := builderUpdate sys.state raw rep
          { sys with
              state := st,
              trigger := sys.trigger || st.builder.wantsRefactor,
              bpc := .awaitPersist2 }
  | .awaitPersist2 =>
      if sys.state.builder.exitCriteriaMet &&
          sys.state.verifier.verdict == .PASS then
        { sys with aborted := true, bpc := .finished }
      else
        let trig := sys.trigger ||
          (sys.state.verifier.verdict == .FAIL &&
            sys.state.verifier.refactorRecommended)
        if sys.aborted || decide (sys.maxIterations ≤ sys.state.iteration) then
          { sys with trigger := trig, bpc := .finished }
        else
          { sys with
              trigger := trig,
              state := { sys.state with iteration := sys.state.iteration + 1 },
              bpc := .awaitPersist1 }
  | .finished => sys
  | .failed => sys

/-- One resumption of the verifier loop (`idle` is the loop top, also
re-entered when its interval sleep resolves). -/
def vStep (sys : Sys) (o : VOutcome) : Sys :=
  match sys.vpc with
  | .idle =>
      if sys.aborted then { sys with vpc := .finished }
      else { sys with vpc := .awaitPrompt }
  | .awaitPrompt =>
      match o with
      | .err => { sys with vpc := .failed }
      | .ok raw rep =>
          { sys with state := verifierUpdate sys.state raw rep,
                     vpc := .awaitPersist }
  | .awaitPersist =>
      if sys.state.verifier.verdict == .PASS &&
          sys.state.builder.exitCriteriaMet then
        { sys with aborted := true, vpc := .finished }
      else
        { sys with
            trigger := sys.trigger ||
              (sys.state.verifier.verdict == .FAIL &&
                sys.state.verifier.refactorRecommended),
            vpc := .idle }
  | .finished => sys
  | .failed => sys

/-- One resumption of the refactorer loop.  At the loop top the whole
synchronous block runs: abort check, trigger read-and-clear, and the
verdict guard (a `continue` on PASS re-runs the loop top synchronously
and, the trigger now clear, enters the poll sleep). -/
def rStep (sys : Sys) (o : ROutcome) : Sys :=
  match sys.rpc with
  | .idle =>
      if sys.aborted then { sys with rpc := .finished }
      else if !sys.trigger then sys
      else if sys.state.verifier.verdict == .PASS then
        { sys with trigger := false }
      else
        { sys with trigger := false, rpc := .awaitPrompt }
  | .awaitPrompt =>
      match o with
      | .err => { sys with rpc := .failed }
      | .ok raw rep =>
          { sys with state := refactorerUpdate sys.state raw rep sys.now,
                     rpc := .awaitPersist }
  | .awaitPersist => { sys with rpc := .idle }
  | .finished => sys
  | .failed => sys

def tick (sys : Sys) : Sys := { sys with now := sys.now + 1 }

/-- One step of the interleaved system: the scheduler resumes one loop,
with the environment's outcome for a completing `prompt`. -/
def step (sys : Sys) (c : Choice) : Sys :=
  match c with
  | .b o => tick (bStep sys o)
  | .v o => tick (vStep sys o)
  | .r o => tick (rStep sys o)

def runSys (sys : Sys) : List Choice → Sys
  | [] => sys
  | c :: cs => runSys (step sys c) cs

/-- The system as `runOrchestrator` sets it up. -/
def initSys (maxIterations : Nat) : Sys :=
  { state :=
      { startedAt := 0,
        iteration := 0,
        builder := ⟨none, false, false⟩,
        verifier := ⟨none, .UNKNOWN, none, false⟩,
        refactorer := ⟨none, 0, none⟩ },
    trigger := false,
    aborted := false,
    bpc := .idle,
    vpc := .idle,
    rpc := .idle,
    maxIterations := maxIterations,
    now := 0 }

theorem tick_state (s : Sys) : (tick s).state = s.state := rfl

theorem tick_aborted (s : Sys) : (tick s).aborted = s.aborted := rfl

theorem step_b_def (sys : Sys) (o : BOutcome) :
    step sys (.b o) = tick (bStep sys o) := rfl

theorem step_v_def (sys : Sys) (o : VOutcome) :
    step sys (.v o) = tick (vStep sys o) := rfl

theorem step_r_def (sys : Sys) (o : ROutcome) :
    step sys (.r o) = tick (rStep sys o) := rfl

/-- The trigger value after the builder's post-persist nudge. -/
def bNudge (sys : Sys) : Bool :=
  sys.trigger ||
    (sys.state.verifier.verdict == .FAIL &&
      sys.state.verifier.refactorRecommended)

theorem bStep_eq_idle (sys : Sys) (o : BOutcome) (hpc : sys.bpc = .idle) :
    bStep sys o =
      if sys.aborted || decide (sys.maxIterations ≤ sys.state.iteration) then
        { sys with bpc := .finished }
      else
        { sys with
            state := { sys.state with iteration := sys.state.iteration + 1 },
            bpc := .awaitPersist1 } := by
  unfold bStep
  rw [hpc]

theorem bStep_eq_persist1 (sys : Sys) (o : BOutcome)
    (hpc : sys.bpc = .awaitPersist1) :
    bStep sys o = { sys with bpc := .awaitPrompt } := by
  unfold bStep
  rw [hpc]

theorem bStep_eq_prompt_err (sys : Sys) (hpc : sys.bpc = .awaitPrompt) :
    bStep sys .err = { sys with bpc := .failed } := by
  unfold bStep
  rw [hpc]

theorem bStep_eq_prompt_ok (sys : Sys) (raw : List Char) (rep : Option BRep)
    (hpc : sys.bpc = .awaitPrompt) :
    bStep sys (.ok raw rep) =
      { sys with
          state := builderUpdate sys.state raw rep,
          trigger := sys.trigger || ((rep.map (·.wantsRefactor)).getD false),
          bpc := .awaitPersist2 } := by
  unfold bStep
  rw [hpc]
  rfl

theorem bStep_eq_persist2 (sys : Sys) (o : BOutcome)
    (hpc : sys.bpc = .awaitPersist2) :
    bStep sys o =
      if sys.state.builder.exitCriteriaMet &&
          sys.state.verifier.verdict == .PASS then
        { sys with aborted := true, bpc := .finished }
      else if sys.aborted || decide (sys.maxIterations ≤ sys.state.iteration) then
        { sys with trigger := bNudge sys, bpc := .finished }
      else
        { sys with
            trigger := bNudge sys,
            state := { sys.state with iteration := sys.state.iteration + 1 },
            bpc := .awaitPersist1 } := by
  unfold bStep
  rw [hpc]
  rfl

theorem bStep_eq_finished (sys : Sys) (o : BOutcome)
    (hpc : sys.bpc = .finished) : bStep sys o = sys := by
  unfold bStep
  rw [hpc]

theorem bStep_eq_failed (sys : Sys) (o : BOutcome)
    (hpc : sys.bpc = .failed) : bStep sys o = sys := by
  unfold bStep
  rw [hpc]

theorem vStep_eq_idle (sys : Sys) (o : VOutcome) (hpc : sys.vpc = .idle) :
    vStep sys o =
      if sys.aborted then { sys with vpc := .finished }
      else { sys with vpc := .awaitPrompt } := by
  unfold vStep
  rw [hpc]

theorem vStep_eq_prompt_err (sys : Sys) (hpc : sys.vpc = .awaitPrompt) :
    vStep sys .err = { sys with vpc := .failed } := by
  unfold vStep
  rw [hpc]

theorem vStep_eq_prompt_ok (sys : Sys) (raw : List Char) (rep : Option VRep)
    (hpc : sys.vpc = .awaitPrompt) :
    vStep sys (.ok raw rep) =
      { sys with state := verifierUpdate sys.state raw rep,
                 vpc := .awaitPersist } := by
  unfold vStep
  rw [hpc]

theorem vStep_eq_persist (sys : Sys) (o : VOutcome)
    (hpc : sys.vpc = .awaitPersist) :
    vStep sys o =
      if sys.state.verifier.verdict == .PASS &&
          sys.state.builder.exitCriteriaMet then
        { sys with aborted := true, vpc := .finished }
      else
        { sys with
            trigger := sys.trigger ||
              (sys.state.verifier.verdict == .FAIL &&
                sys.state.verifier.refactorRecommended),
            vpc := .idle } := by
  unfold vStep
  rw [hpc]

theorem vStep_eq_finished (sys : Sys) (o : VOutcome)
    (hpc : sys.vpc = .finished) : vStep sys o = sys := by
  unfold vStep
  rw [hpc]

theorem vStep_eq_failed (sys : Sys) (o : VOutcome)
    (hpc : sys.vpc = .failed) : vStep sys o = sys := by
  unfold vStep
  rw [hpc]

theorem rStep_eq_idle (sys : Sys) (o : ROutcome) (hpc : sys.rpc = .idle) :
    rStep sys o =
      if sys.aborted then { sys with rpc := .finished }
      else if !sys.trigger then sys
      else if sys.state.verifier.verdict == .PASS then
        { sys with trigger := false }
      else
        { sys with trigger := false, rpc := .awaitPrompt } := by
  unfold rStep
  rw [hpc]

theorem rStep_eq_prompt_err (sys : Sys) (hpc : sys.rpc = .awaitPrompt) :
    rStep sys .err = { sys with rpc := .failed } := by
  unfold rStep
  rw [hpc]

theorem rStep_eq_prompt_ok (sys : Sys) (raw : List Char)
    (rep : Option (List Char)) (hpc : sys.rpc = .awaitPrompt) :
    rStep sys (.ok raw rep) =
      { sys with state := refactorerUpdate sys.state raw rep sys.now,
                 rpc := .awaitPersist } := by
  unfold rStep
  rw [hpc]

theorem rStep_eq_persist (sys : Sys) (o : ROutcome)
    (hpc : sys.rpc = .awaitPersist) :
    rStep sys o = { sys with rpc := .idle } := by
  unfold rStep
  rw [hpc]

theorem rStep_eq_finished (sys : Sys) (o : ROutcome)
    (hpc : sys.rpc = .finished) : rStep sys o = sys := by
  unfold rStep
  rw [hpc]

theorem rStep_eq_failed (sys : Sys) (o : ROutcome)
    (hpc : sys.rpc = .failed) : rStep sys o = sys := by
  unfold rStep
  rw [hpc]

theorem bStep_abort_fresh (sys : Sys) (o : BOutcome)
    (h0 : sys.aborted = false) (h1 : (bStep sys o).aborted = true) :
    sys.state.builder.exitCriteriaMet = true ∧
      sys.state.verifier.verdict = .PASS := by
  cases hpc : sys.bpc with
  | idle =>
      rw [bStep_eq_idle sys o hpc] at h1
      split at h1 <;> simp_all
  | awaitPersist1 =>
      rw [bStep_eq_persist1 sys o hpc] at h1
      simp_all
  | awaitPrompt =>
      cases o with
      | err => rw [bStep_eq_prompt_err sys hpc] at h1; simp_all
      | ok raw rep => rw [bStep_eq_prompt_ok sys raw rep hpc] at h1; simp_all
  | awaitPersist2 =>
      rw [bStep_eq_persist2 sys o hpc] at h1
      split at h1
      · next hcond =>
          rw [Bool.and_eq_true] at hcond
          exact ⟨hcond.1, by simpa using hcond.2⟩
      · split at h1 <;> simp_all
  | finished => rw [bStep_eq_finished sys o hpc] at h1; simp_all
  | failed => rw [bStep_eq_failed sys o hpc] at h1; simp_all

theorem vStep_abort_fresh (sys : Sys) (o : VOutcome)
    (h0 : sys.aborted = false) (h1 : (vStep sys o).aborted = true) :
    sys.state.builder.exitCriteriaMet = true ∧
      sys.state.verifier.verdict = .PASS := by
  cases hpc : sys.vpc with
  | idle =>
      rw [vStep_eq_idle sys o hpc] at h1
      split at h1 <;> simp_all
  | awaitPrompt =>
      cases o with
      | err => rw [vStep_eq_prompt_err sys hpc] at h1; simp_all
      | ok raw rep => rw [vStep_eq_prompt_ok sys raw rep hpc] at h1; simp_all
  | awaitPersist =>
      rw [vStep_eq_persist sys o hpc] at h1
      split at h1
      · next hcond =>
          rw [Bool.and_eq_true] at hcond
          exact ⟨hcond.2, by simpa using hcond.1⟩
      · simp_all
  | finished => rw [vStep_eq_finished sys o hpc] at h1; simp_all
  | failed => rw [vStep_eq_failed sys o hpc] at h1; simp_all

theorem rStep_aborted_eq (sys : Sys) (o : ROutcome) :
    (rStep sys o).aborted = sys.aborted := by
  cases hpc : sys.rpc with
  | idle =>
      rw [rStep_eq_idle sys o hpc]
      split
      · rfl
      · split
        · rfl
        · split <;> rfl
  | awaitPrompt =>
      cases o with
      | err => rw [rStep_eq_prompt_err sys hpc]
      | ok raw rep => rw [rStep_eq_prompt_ok sys raw rep hpc]
  | awaitPersist => rw [rStep_eq_persist sys o hpc]
  | finished => rw [rStep_eq_finished sys o hpc]
  | failed => rw [rStep_eq_failed sys o hpc]

theorem bStep_raises (sys : Sys) (o : BOutcome)
    (hpc : sys.bpc = .awaitPersist2)
    (h1 : sys.state.builder.exitCriteriaMet = true)
    (h2 : sys.state.verifier.verdict = .PASS) :
    (bStep sys o).aborted = true := by
  rw [bStep_eq_persist2 sys o hpc]
  rw [if_pos (by simp [h1, h2])]

theorem vStep_raises (sys : Sys) (o : VOutcome)
    (hpc : sys.vpc = .awaitPersist)
    (h1 : sys.state.verifier.verdict = .PASS)
    (h2 : sys.state.builder.exitCriteriaMet = true) :
    (vStep sys o).aborted = true := by
  rw [vStep_eq_persist sys o hpc]
  rw [if_pos (by simp [h1, h2])]

theorem bStep_aborted_mono (sys : Sys) (o : BOutcome)
    (h : sys.aborted = true) : (bStep sys o).aborted = true := by
  cases hpc : sys.bpc with
  | idle => rw [bStep_eq_idle sys o hpc]; split <;> exact h
  | awaitPersist1 => rw [bStep_eq_persist1 sys o hpc]; exact h
  | awaitPrompt =>
      cases o with
      | err => rw [bStep_eq_prompt_err sys hpc]; exact h
      | ok raw rep => rw [bStep_eq_prompt_ok sys raw rep hpc]; exact h
  | awaitPersist2 =>
      rw [bStep_eq_persist2 sys o hpc]
      split
      · rfl
      · split <;> exact h
  | finished => rw [bStep_eq_finished sys o hpc]; exact h
  | failed => rw [bStep_eq_failed sys o hpc]; exact h

theorem vStep_aborted_mono (sys : Sys) (o : VOutcome)
    (h : sys.aborted = true) : (vStep sys o).aborted = true := by
  cases hpc : sys.vpc with
  | idle => rw [vStep_eq_idle sys o hpc]; split <;> exact h
  | awaitPrompt =>
      cases o with
      | err => rw [vStep_eq_prompt_err sys hpc]; exact h
      | ok raw rep => rw [vStep_eq_prompt_ok sys raw rep hpc]; exact h
  | awaitPersist =>
      rw [vStep_eq_persist sys o hpc]
      split
      · rfl
      · exact h
  | finished => rw [vStep_eq_finished sys o hpc]; exact h
  | failed => rw [vStep_eq_failed sys o hpc]; exact h

theorem bStep_idle_exit (sys : Sys) (o : BOutcome) (h : sys.aborted = true)
    (hpc : sys.bpc = .idle) : (bStep sys o).bpc = .finished := by
  rw [bStep_eq_idle sys o hpc]
  rw [if_pos (by simp [h])]

theorem bStep_persist2_exit (sys : Sys) (o : BOutcome)
    (h : sys.aborted = true) (hpc : sys.bpc = .awaitPersist2) :
    (bStep sys o).bpc = .finished := by
  rw [bStep_eq_persist2 sys o hpc]
  split
  · rfl
  · rw [if_pos (by simp [h])]

theorem vStep_idle_exit (sys : Sys) (o : VOutcome) (h : sys.aborted = true)
    (hpc : sys.vpc = .idle) : (vStep sys o).vpc = .finished := by
  rw [vStep_eq_idle sys o hpc]
  rw [if_pos h]

theorem rStep_idle_exit (sys : Sys) (o : ROutcome) (h : sys.aborted = true)
    (hpc : sys.rpc = .idle) : (rStep sys o).rpc = .finished := by
  rw [rStep_eq_idle sys o hpc]
  rw [if_pos h]

theorem bStep_iteration_frozen (sys : Sys) (o : BOutcome)
    (h : sys.aborted = true) :
    (bStep sys o).state.iteration = sys.state.iteration := by
  cases hpc : sys.bpc with
  | idle => rw [bStep_eq_idle sys o hpc, if_pos (by simp [h])]
  | awaitPersist1 => rw [bStep_eq_persist1 sys o hpc]
  | awaitPrompt =>
      cases o with
      | err => rw [bStep_eq_prompt_err sys hpc]
      | ok raw rep =>
          rw [bStep_eq_prompt_ok sys raw rep hpc]
          rfl
  | awaitPersist2 =>
      rw [bStep_eq_persist2 sys o hpc]
      split
      · rfl
      · rw [if_pos (by simp [h])]
  | finished => rw [bStep_eq_finished sys o hpc]
  | failed => rw [bStep_eq_failed sys o hpc]

theorem vStep_iteration_eq (sys : Sys) (o : VOutcome) :
    (vStep sys o).state.iteration = sys.state.iteration := by
  cases hpc : sys.vpc with
  | idle => rw [vStep_eq_idle sys o hpc]; split <;> rfl
  | awaitPrompt =>
      cases o with
      | err => rw [vStep_eq_prompt_err sys hpc]
      | ok raw rep => rw [vStep_eq_prompt_ok sys raw rep hpc]; rfl
  | awaitPersist => rw [vStep_eq_persist sys o hpc]; split <;> rfl
  | finished => rw [vStep_eq_finished sys o hpc]
  | failed => rw [vStep_eq_failed sys o hpc]

theorem rStep_iteration_eq (sys : Sys) (o : ROutcome) :
    (rStep sys o).state.iteration = sys.state.iteration := by
  cases hpc : sys.rpc with
  | idle =>
      rw [rStep_eq_idle sys o hpc]
      split
      · rfl
      · split
        · rfl
        · split <;> rfl
  | awaitPrompt =>
      cases o with
      | err => rw [rStep_eq_prompt_err sys hpc]
      | ok raw rep => rw [rStep_eq_prompt_ok sys raw rep hpc]; rfl
  | awaitPersist => rw [rStep_eq_persist sys o hpc]
  | finished => rw [rStep_eq_finished sys o hpc]
  | failed => rw [rStep_eq_failed sys o hpc]

/-- C2. `abort.abort()` is raised exactly when a loop observes both
`builder.exitCriteriaMet` and `verifier.verdict === "PASS"`: any step
that turns the flag on was taken from a state satisfying that condition,
and the builder's and verifier's post-persist checks do raise it whenever
the condition holds there.  Raising is idempotent in effect (once set the
flag stays set and re-raising changes nothing), every loop exits to its
terminal state at its next checkpoint once the flag is set, and the
iteration counter never advances after the flag is set. -/
theorem C2_termination_exactly_on_completion (sys : Sys) (c : Choice) :
    (sys.aborted = false → (step sys c).aborted = true →
      sys.state.builder.exitCriteriaMet = true ∧
        sys.state.verifier.verdict = .PASS) ∧
    (sys.bpc = .awaitPersist2 → sys.state.builder.exitCriteriaMet = true →
      sys.state.verifier.verdict = .PASS →
      ∀ o, (step sys (.b o)).aborted = true) ∧
    (sys.vpc = .awaitPersist → sys.state.verifier.verdict = .PASS →
      sys.state.builder.exitCriteriaMet = true →
      ∀ o, (step sys (.v o)).aborted = true) ∧
    (sys.aborted = true → (step sys c).aborted = true) ∧
    (sys.aborted = true → sys.bpc = .idle →
      ∀ o, (step sys (.b o)).bpc = .finished) ∧
    (sys.aborted = true → sys.bpc = .awaitPersist2 →
      ∀ o, (step sys (.b o)).bpc = .finished) ∧
    (sys.aborted = true → sys.vpc = .idle →
      ∀ o, (step sys (.v o)).vpc = .finished) ∧
    (sys.aborted = true → sys.rpc = .idle →
      ∀ o, (step sys (.r o)).rpc = .finished) ∧
    (sys.aborted = true →
      (step sys c).state.iteration = sys.state.iteration) := by
  refine ⟨?_, ?_, ?_, ?_, ?_, ?_, ?_, ?_, ?_⟩
  · intro h0 h1
    cases c with
    | b o => exact bStep_abort_fresh sys o h0 h1
    | v o => exact vStep_abort_fresh sys o h0 h1
    | r o =>
        exfalso
        have : (rStep sys o).aborted = sys.aborted := rStep_aborted_eq sys o
        rw [show (step sys (.r o)).aborted = (rStep sys o).aborted from rfl,
          this, h0] at h1
        exact Bool.false_ne_true h1
  · intro hpc h1 h2 o
    exact bStep_raises sys o hpc h1 h2
  · intro hpc h1 h2 o
    exact vStep_raises sys o hpc h1 h2
  · intro h
    cases c with
    | b o => exact bStep_aborted_mono sys o h
    | v o => exact vStep_aborted_mono sys o h
    | r o => rw [show (step sys (.r o)).aborted = (rStep sys o).aborted from rfl,
        rStep_aborted_eq sys o]; exact h
  · intro h hpc o
    exact bStep_idle_exit sys o h hpc
  · intro h hpc o
    exact bStep_persist2_exit sys o h hpc
  · intro h hpc o
    exact vStep_idle_exit sys o h hpc
  · intro h hpc o
    exact rStep_idle_exit sys o h hpc
  · intro h
    cases c with
    | b o => exact bStep_iteration_frozen sys o h
    | v o => exact vStep_iteration_eq sys o
    | r o => exact rStep_iteration_eq sys o

def c2Rep : VRep := ⟨some .PASS, false, "[]".toList⟩

/-- A reachable state in which the builder is at its post-persist check
with `exitCriteriaMet` true and the verdict `PASS`. -/
def c2Sys : Sys :=
  runSys (initSys 2)
    [.b (.ok [] none), .b (.ok [] none),
     .v (.ok [] none), .v (.ok [] (some c2Rep)), .v (.ok [] none),
     .b (.ok [] (some ⟨true, false⟩))]

/-- Witness for C2: at the concrete reachable state `c2Sys` the abort
flag is still unset, and the builder's next step raises it. -/
theorem C2_termination_exactly_on_completion_witness :
    (step c2Sys (.b (.ok [] none))).aborted = true :=
  (C2_termination_exactly_on_completion c2Sys (.b (.ok [] none))).2.1
    (by rfl) (by rfl) (by rfl) (.ok [] none)

theorem bStep_frame (sys : Sys) (o : BOutcome) :
    (bStep sys o).vpc = sys.vpc ∧ (bStep sys o).rpc = sys.rpc ∧
    (bStep sys o).state.verifier = sys.state.verifier ∧
    (bStep sys o).state.refactorer = sys.state.refactorer ∧
    (bStep sys o).maxIterations = sys.maxIterations := by
  cases hpc : sys.bpc with
  | idle =>
      rw [bStep_eq_idle sys o hpc]
      split <;> exact ⟨rfl, rfl, rfl, rfl, rfl⟩
  | awaitPersist1 =>
      rw [bStep_eq_persist1 sys o hpc]
      exact ⟨rfl, rfl, rfl, rfl, rfl⟩
  | awaitPrompt =>
      cases o with
      | err =>
          rw [bStep_eq_prompt_err sys hpc]
          exact ⟨rfl, rfl, rfl, rfl, rfl⟩
      | ok raw rep =>
          rw [bStep_eq_prompt_ok sys raw rep hpc]
          exact ⟨rfl, rfl, rfl, rfl, rfl⟩
  | awaitPersist2 =>
      rw [bStep_eq_persist2 sys o hpc]
      split
      · exact ⟨rfl, rfl, rfl, rfl, rfl⟩
      · split <;> exact ⟨rfl, rfl, rfl, rfl, rfl⟩
  | finished =>
      rw [bStep_eq_finished sys o hpc]
      exact ⟨rfl, rfl, rfl, rfl, rfl⟩
  | failed =>
      rw [bStep_eq_failed sys o hpc]
      exact ⟨rfl, rfl, rfl, rfl, rfl⟩

theorem vStep_frame (sys : Sys) (o : VOutcome) :
    (vStep sys o).bpc = sys.bpc ∧ (vStep sys o).rpc = sys.rpc ∧
    (vStep sys o).state.builder = sys.state.builder ∧
    (vStep sys o).state.refactorer = sys.state.refactorer ∧
    (vStep sys o).maxIterations = sys.maxIterations := by
  cases hpc : sys.vpc with
  | idle =>
      rw [vStep_eq_idle sys o hpc]
      split <;> exact ⟨rfl, rfl, rfl, rfl, rfl⟩
  | awaitPrompt =>
      cases o with
      | err =>
          rw [vStep_eq_prompt_err sys hpc]
          exact ⟨rfl, rfl, rfl, rfl, rfl⟩
      | ok raw rep =>
          rw [vStep_eq_prompt_ok sys raw rep hpc]
          exact ⟨rfl, rfl, rfl, rfl, rfl⟩
  | awaitPersist =>
      rw [vStep_eq_persist sys o hpc]
      split <;> exact ⟨rfl, rfl, rfl, rfl, rfl⟩
  | finished =>
      rw [vStep_eq_finished sys o hpc]
      exact ⟨rfl, rfl, rfl, rfl, rfl⟩
  | failed =>
      rw [vStep_eq_failed sys o hpc]
      exact ⟨rfl, rfl, rfl, rfl, rfl⟩

theorem rStep_frame (sys : Sys) (o : ROutcome) :
    (rStep sys o).bpc = sys.bpc ∧ (rStep sys o).vpc = sys.vpc ∧
    (rStep sys o).state.builder = sys.state.builder ∧
    (rStep sys o).state.verifier = sys.state.verifier ∧
    (rStep sys o).maxIterations = sys.maxIterations := by
  cases hpc : sys.rpc with
  | idle =>
      rw [rStep_eq_idle sys o hpc]
      split
      · exact ⟨rfl, rfl, rfl, rfl, rfl⟩
      · split
        · exact ⟨rfl, rfl, rfl, rfl, rfl⟩
        · split <;> exact ⟨rfl, rfl, rfl, rfl, rfl⟩
  | awaitPrompt =>
      cases o with
      | err =>
          rw [rStep_eq_prompt_err sys hpc]
          exact ⟨rfl, rfl, rfl, rfl, rfl⟩
      | ok raw rep =>
          rw [rStep_eq_prompt_ok sys raw rep hpc]
          exact ⟨rfl, rfl, rfl, rfl, rfl⟩
  | awaitPersist =>
      rw [rStep_eq_persist sys o hpc]
      exact ⟨rfl, rfl, rfl, rfl, rfl⟩
  | finished =>
      rw [rStep_eq_finished sys o hpc]
      exact ⟨rfl, rfl, rfl, rfl, rfl⟩
  | failed =>
      rw [rStep_eq_failed sys o hpc]
      exact ⟨rfl, rfl, rfl, rfl, rfl⟩

/-- A reachable state with the builder loop suspended at `client.prompt`
(iteration 1 of a maximum of 5). -/
def c3Sys : Sys := runSys (initSys 5) [.b (.ok [] none), .b (.ok [] none)]

/-- C3 counterexample: at the concrete reachable state `c3Sys`, a
`client.prompt` rejection moves the builder loop to its terminal `failed`
state — the builder sub-record is indeed left unchanged, but the error
rejects the loop promise (it escapes the loop boundary, absorbed only by
`Promise.allSettled`), and on the loop's next scheduled resumption
nothing runs: the loop stays `failed` and the iteration counter stays 1,
so the loop does not retry. -/
theorem C3_invocation_failure_cex :
    c3Sys.bpc = BPc.awaitPrompt ∧
    (step c3Sys (.b .err)).bpc = BPc.failed ∧
    (step c3Sys (.b .err)).state.builder = c3Sys.state.builder ∧
    (step (step c3Sys (.b .err)) (.b (.ok [] none))).bpc = BPc.failed ∧
    (step (step c3Sys (.b .err)) (.b (.ok [] none))).state.iteration = 1 :=
  ⟨rfl, rfl, rfl, rfl, rfl⟩

/-- C3 (amended). A `client.prompt` failure leaves the failing role's
sub-record of the shared state unchanged (the stale `lastReport`
persists) and does not crash the orchestrator (`Promise.allSettled`
absorbs the rejected loop promise), but the loops install no handler
around `client.prompt`: the rejection terminates that loop permanently —
the loop does not retry on a next iteration, and its role's sub-record is
never updated again. -/
theorem C3_invocation_failure_terminates_loop (sys : Sys) (c : Choice) :
    (sys.bpc = .awaitPrompt →
      (step sys (.b .err)).bpc = .failed ∧
      (step sys (.b .err)).state = sys.state ∧
      (step sys (.b .err)).trigger = sys.trigger ∧
      (step sys (.b .err)).aborted = sys.aborted) ∧
    (sys.bpc = .failed →
      (step sys c).bpc = .failed ∧
      (step sys c).state.builder = sys.state.builder ∧
      (step sys c).state.iteration = sys.state.iteration) ∧
    (sys.vpc = .awaitPrompt →
      (step sys (.v .err)).vpc = .failed ∧
      (step sys (.v .err)).state = sys.state) ∧
    (sys.vpc = .failed →
      (step sys c).vpc = .failed ∧
      (step sys c).state.verifier = sys.state.verifier) ∧
    (sys.rpc = .awaitPrompt →
      (step sys (.r .err)).rpc = .failed ∧
      (step sys (.r .err)).state = sys.state) ∧
    (sys.rpc = .failed →
      (step sys c).rpc = .failed ∧
      (step sys c).state.refactorer = sys.state.refactorer) := by
  refine ⟨?_, ?_, ?_, ?_, ?_, ?_⟩
  · intro hpc
    rw [step_b_def, bStep_eq_prompt_err sys hpc]
    exact ⟨rfl, rfl, rfl, rfl⟩
  · intro hpc
    cases c with
    | b o =>
        rw [step_b_def, bStep_eq_failed sys o hpc]
        exact ⟨hpc, rfl, rfl⟩
    | v o =>
        have hf := vStep_frame sys o
        exact ⟨by rw [show (step sys (.v o)).bpc = (vStep sys o).bpc from rfl,
            hf.1]; exact hpc,
          by rw [show (step sys (.v o)).state.builder = (vStep sys o).state.builder
            from rfl, hf.2.2.1],
          vStep_iteration_eq sys o⟩
    | r o =>
        have hf := rStep_frame sys o
        exact ⟨by rw [show (step sys (.r o)).bpc = (rStep sys o).bpc from rfl,
            hf.1]; exact hpc,
          by rw [show (step sys (.r o)).state.builder = (rStep sys o).state.builder
            from rfl, hf.2.2.1],
          rStep_iteration_eq sys o⟩
  · intro hpc
    rw [step_v_def, vStep_eq_prompt_err sys hpc]
    exact ⟨rfl, rfl⟩
  · intro hpc
    cases c with
    | b o =>
        have hf := bStep_frame sys o
        exact ⟨by rw [show (step sys (.b o)).vpc = (bStep sys o).vpc from rfl,
            hf.1]; exact hpc,
          by rw [show (step sys (.b o)).state.verifier = (bStep sys o).state.verifier
            from rfl, hf.2.2.1]⟩
    | v o =>
        rw [step_v_def, vStep_eq_failed sys o hpc]
        exact ⟨hpc, rfl⟩
    | r o =>
        have hf := rStep_frame sys o
        exact ⟨by rw [show (step sys (.r o)).vpc = (rStep sys o).vpc from rfl,
            hf.2.1]; exact hpc,
          by rw [show (step sys (.r o)).state.verifier = (rStep sys o).state.verifier
            from rfl, hf.2.2.2.1]⟩
  · intro hpc
    rw [step_r_def, rStep_eq_prompt_err sys hpc]
    exact ⟨rfl, rfl⟩
  · intro hpc
    cases c with
    | b o =>
        have hf := bStep_frame sys o
        exact ⟨by rw [show (step sys (.b o)).rpc = (bStep sys o).rpc from rfl,
            hf.2.1]; exact hpc,
          by rw [show (step sys (.b o)).state.refactorer = (bStep sys o).state.refactorer
            from rfl, hf.2.2.2.1]⟩
    | v o =>
        have hf := vStep_frame sys o
        exact ⟨by rw [show (step sys (.v o)).rpc = (vStep sys o).rpc from rfl,
            hf.2.1]; exact hpc,
          by rw [show (step sys (.v o)).state.refactorer = (vStep sys o).state.refactorer
            from rfl, hf.2.2.2.1]⟩
    | r o =>
        rw [step_r_def, rStep_eq_failed sys o hpc]
        exact ⟨hpc, rfl⟩

/-- C4. When the refactorer loop consumes the trigger: if the verifier's
verdict is `PASS` at that moment it clears the trigger and skips
execution entirely — the shared state (including `ranCount` and
`lastRanAt`) is untouched, no invocation is issued, and the loop returns
to its waiting poll; otherwise it clears the trigger and issues exactly
one invocation, whose completion updates only the `refactorer`
sub-record, increments `ranCount` by exactly one and stamps `lastRanAt`
with the current time. -/
theorem C4_refactorer_skips_on_pass (sys : Sys) :
    (sys.rpc = .idle → sys.aborted = false → sys.trigger = true →
      sys.state.verifier.verdict = .PASS →
      ∀ o, (step sys (.r o)).trigger = false ∧
        (step sys (.r o)).rpc = .idle ∧
        (step sys (.r o)).state = sys.state) ∧
    (sys.rpc = .idle → sys.aborted = false → sys.trigger = true →
      sys.state.verifier.verdict ≠ .PASS →
      ∀ o, (step sys (.r o)).trigger = false ∧
        (step sys (.r o)).rpc = .awaitPrompt ∧
        (step sys (.r o)).state = sys.state) ∧
    (sys.rpc = .awaitPrompt → ∀ raw rep,
      (step sys (.r (.ok raw rep))).state.refactorer.ranCount =
        sys.state.refactorer.ranCount + 1 ∧
      (step sys (.r (.ok raw rep))).state.refactorer.lastRanAt = some sys.now ∧
      (step sys (.r (.ok raw rep))).state.builder = sys.state.builder ∧
      (step sys (.r (.ok raw rep))).state.verifier = sys.state.verifier ∧
      (step sys (.r (.ok raw rep))).state.iteration = sys.state.iteration ∧
      (step sys (.r (.ok raw rep))).rpc = .awaitPersist ∧
      (step sys (.r (.ok raw rep))).trigger = sys.trigger ∧
      (step sys (.r (.ok raw rep))).aborted = sys.aborted) := by
  refine ⟨?_, ?_, ?_⟩
  · intro hpc h0 ht hv o
    rw [step_r_def, rStep_eq_idle sys o hpc, if_neg (by simp [h0]),
      if_neg (by simp [ht]), if_pos (by simp [hv])]
    exact ⟨rfl, hpc, rfl⟩
  · intro hpc h0 ht hv o
    rw [step_r_def, rStep_eq_idle sys o hpc, if_neg (by simp [h0]),
      if_neg (by simp [ht]), if_neg (by simp [hv])]
    exact ⟨rfl, rfl, rfl⟩
  · intro hpc raw rep
    rw [step_r_def, rStep_eq_prompt_ok sys raw rep hpc]
    exact ⟨rfl, rfl, rfl, rfl, rfl, rfl, rfl, rfl⟩

theorem bStep_iteration_mono (sys : Sys) (o : BOutcome) :
    sys.state.iteration ≤ (bStep sys o).state.iteration := by
  cases hpc : sys.bpc with
  | idle =>
      rw [bStep_eq_idle sys o hpc]
      split
      · exact Nat.le_refl _
      · exact Nat.le_succ _
  | awaitPersist1 => rw [bStep_eq_persist1 sys o hpc]
  | awaitPrompt =>
      cases o with
      | err => rw [bStep_eq_prompt_err sys hpc]
      | ok raw rep =>
          rw [bStep_eq_prompt_ok sys raw rep hpc]
          exact Nat.le_refl _
  | awaitPersist2 =>
      rw [bStep_eq_persist2 sys o hpc]
      split
      · exact Nat.le_refl _
      · split
        · exact Nat.le_refl _
        · exact Nat.le_succ _
  | finished => rw [bStep_eq_finished sys o hpc]
  | failed => rw [bStep_eq_failed sys o hpc]

theorem bStep_iteration_change (sys : Sys) (o : BOutcome)
    (h : (bStep sys o).state.iteration ≠ sys.state.iteration) :
    sys.aborted = false ∧ sys.state.iteration < sys.maxIterations ∧
    (bStep sys o).state.iteration = sys.state.iteration + 1 ∧
    (bStep sys o).bpc = .awaitPersist1 ∧
    (sys.bpc = .idle ∨ sys.bpc = .awaitPersist2) := by
  cases hpc : sys.bpc with
  | idle =>
      by_cases hcond :
          (sys.aborted || decide (sys.maxIterations ≤ sys.state.iteration)) = true
      · have hstep : bStep sys o = { sys with bpc := .finished } := by
          rw [bStep_eq_idle sys o hpc, if_pos hcond]
        rw [hstep] at h
        exact absurd rfl h
      · have hstep : bStep sys o =
            { sys with
                state := { sys.state with iteration := sys.state.iteration + 1 },
                bpc := .awaitPersist1 } := by
          rw [bStep_eq_idle sys o hpc, if_neg hcond]
        simp only [Bool.or_eq_true, decide_eq_true_eq, not_or] at hcond
        refine ⟨by simpa using hcond.1, by omega, by rw [hstep], by rw [hstep],
          Or.inl rfl⟩
  | awaitPersist1 =>
      rw [bStep_eq_persist1 sys o hpc] at h
      exact absurd rfl h
  | awaitPrompt =>
      cases o with
      | err =>
          rw [bStep_eq_prompt_err sys hpc] at h
          exact absurd rfl h
      | ok raw rep =>
          rw [bStep_eq_prompt_ok sys raw rep hpc] at h
          exact absurd rfl h
  | awaitPersist2 =>
      by_cases hnc : (sys.state.builder.exitCriteriaMet &&
          sys.state.verifier.verdict == Verdict.PASS) = true
      · have hstep : bStep sys o = { sys with aborted := true, bpc := .finished } := by
          rw [bStep_eq_persist2 sys o hpc, if_pos hnc]
        rw [hstep] at h
        exact absurd rfl h
      · by_cases hcond :
            (sys.aborted || decide (sys.maxIterations ≤ sys.state.iteration)) = true
        · have hstep : bStep sys o =
              { sys with trigger := bNudge sys, bpc := .finished } := by
            rw [bStep_eq_persist2 sys o hpc, if_neg hnc, if_pos hcond]
          rw [hstep] at h
          exact absurd rfl h
        · have hstep : bStep sys o =
              { sys with
                  trigger := bNudge sys,
                  state := { sys.state with iteration := sys.state.iteration + 1 },
                  bpc := .awaitPersist1 } := by
            rw [bStep_eq_persist2 sys o hpc, if_neg hnc, if_neg hcond]
          simp only [Bool.or_eq_true, decide_eq_true_eq, not_or] at hcond
          refine ⟨by simpa using hcond.1, by omega, by rw [hstep], by rw [hstep],
            Or.inr rfl⟩
  | finished =>
      rw [bStep_eq_finished sys o hpc] at h
      exact absurd rfl h
  | failed =>
      rw [bStep_eq_failed sys o hpc] at h
      exact absurd rfl h

/-- After the builder loop has stopped (its promise settled) with exit
criteria unmet and Termination unset, neither remaining loop can raise
Termination, so the verifier loop never reaches `Done`: the run does not
end as long as no invocation fails. -/
def stuckInv (sys : Sys) : Prop :=
  sys.bpc = .finished ∧ sys.state.builder.exitCriteriaMet = false ∧
  sys.aborted = false ∧ sys.vpc ≠ .finished ∧ sys.vpc ≠ .failed

/-- Choices whose prompt outcome is not an invocation failure. -/
def okChoice : Choice → Bool
  | .b .err => false
  | .v .err => false
  | .r .err => false
  | _ => true

theorem stuckInv_step (sys : Sys) (c : Choice) (h : stuckInv sys)
    (hok : okChoice c = true) : stuckInv (step sys c) := by
  obtain ⟨hb, hexit, hab, hvf, hvx⟩ := h
  cases c with
  | b o =>
      rw [step_b_def, bStep_eq_finished sys o hb]
      exact ⟨hb, hexit, hab, hvf, hvx⟩
  | v o =>
      have hf := vStep_frame sys o
      have hexit' : (vStep sys o).state.builder.exitCriteriaMet = false := by
        rw [hf.2.2.1]; exact hexit
      have hab' : (vStep sys o).aborted = false := by
        cases habs : (vStep sys o).aborted
        · rfl
        · exact absurd (vStep_abort_fresh sys o hab habs).1 (by simp [hexit])
      have hvpc : (vStep sys o).vpc ≠ .finished ∧ (vStep sys o).vpc ≠ .failed := by
        cases hpc : sys.vpc with
        | idle =>
            rw [vStep_eq_idle sys o hpc, if_neg (by simp [hab])]
            exact ⟨by simp, by simp⟩
        | awaitPrompt =>
            cases o with
            | err => exact absurd hok (by simp [okChoice])
            | ok raw rep =>
                rw [vStep_eq_prompt_ok sys raw rep hpc]
                exact ⟨by simp, by simp⟩
        | awaitPersist =>
            rw [vStep_eq_persist sys o hpc,
              if_neg (by simp [hexit])]
            exact ⟨by simp, by simp⟩
        | finished => exact absurd hpc hvf
        | failed => exact absurd hpc hvx
      exact ⟨by rw [show (step sys (.v o)).bpc = (vStep sys o).bpc from rfl,
          hf.1]; exact hb,
        hexit', hab', hvpc.1, hvpc.2⟩
  | r o =>
      have hf := rStep_frame sys o
      exact ⟨by rw [show (step sys (.r o)).bpc = (rStep sys o).bpc from rfl,
          hf.1]; exact hb,
        by rw [show (step sys (.r o)).state.builder = (rStep sys o).state.builder
          from rfl, hf.2.2.1]; exact hexit,
        by rw [show (step sys (.r o)).aborted = (rStep sys o).aborted from rfl,
          rStep_aborted_eq sys o]; exact hab,
        by rw [show (step sys (.r o)).vpc = (rStep sys o).vpc from rfl, hf.2.1]
          ; exact hvf,
        by rw [show (step sys (.r o)).vpc = (rStep sys o).vpc from rfl, hf.2.1]
          ; exact hvx⟩

theorem stuckInv_run (cs : List Choice) (sys : Sys) (h : stuckInv sys)
    (hok : cs.all okChoice = true) : stuckInv (runSys sys cs) := by
  induction cs generalizing sys with
  | nil => exact h
  | cons c t ih =>
      rw [List.all_cons, Bool.and_eq_true] at hok
      exact ih (step sys c) (stuckInv_step sys c h hok.1) hok.2

/-- A run of `runOrchestrator` with `maxIterations = 1` in which the
builder loop has stopped at the cap: exit criteria unmet, Termination
never raised. -/
def c5Sys : Sys :=
  runSys (initSys 1)
    [.b (.ok [] none), .b (.ok [] none), .b (.ok [] none), .b (.ok [] none)]

/-- C5 counterexample: at the concrete reachable state `c5Sys` — the
builder stopped by the iteration cap, exit criteria unmet, Termination
unset — no continuation of the run in which invocations keep succeeding
ever brings the verifier loop to its terminal state: the run does not
end, so it is not "reported as incomplete"; it simply never returns. -/
theorem C5_run_never_ends_cex :
    c5Sys.bpc = BPc.finished ∧ c5Sys.aborted = false ∧
    c5Sys.state.iteration = 1 ∧ c5Sys.maxIterations = 1 ∧
    c5Sys.state.builder.exitCriteriaMet = false ∧
    ¬ ∃ cs, cs.all okChoice = true ∧
      (runSys c5Sys cs).vpc = VPc.finished := by
  refine ⟨rfl, rfl, rfl, rfl, rfl, ?_⟩
  rintro ⟨cs, hok, hfin⟩
  have hstuck : stuckInv c5Sys :=
    ⟨rfl, rfl, rfl, by decide, by decide⟩
  exact (stuckInv_run cs c5Sys hstuck hok).2.2.2.1 hfin

/-- C5 (amended). The iteration counter never decreases; it changes only
when the builder loop starts a new pass (from its loop top, with
Termination unset and the counter strictly below the maximum), and then
by exactly one; once the counter has reached the configured maximum the
builder loop stops issuing new passes and terminates without raising
Termination and without touching the state; but the run does not then
end on its own: from any such stuck state, as long as invocations keep
succeeding, the verifier loop never reaches its terminal state (only
Termination — impossible here — or an invocation failure can settle it),
so the orchestrator never returns to report the incomplete run. -/
theorem C5_iteration_cap_stops_builder (sys : Sys) (c : Choice) :
    (sys.state.iteration ≤ (step sys c).state.iteration) ∧
    ((step sys c).state.iteration ≠ sys.state.iteration →
      (∃ o, c = .b o) ∧ sys.aborted = false ∧
      sys.state.iteration < sys.maxIterations ∧
      (step sys c).state.iteration = sys.state.iteration + 1 ∧
      (step sys c).bpc = .awaitPersist1 ∧
      (sys.bpc = .idle ∨ sys.bpc = .awaitPersist2)) ∧
    (sys.bpc = .idle → sys.maxIterations ≤ sys.state.iteration →
      ∀ o, (step sys (.b o)).bpc = .finished ∧
        (step sys (.b o)).aborted = sys.aborted ∧
        (step sys (.b o)).state = sys.state) ∧
    (stuckInv sys → ∀ cs, cs.all okChoice = true →
      stuckInv (runSys sys cs)) := by
  refine ⟨?_, ?_, ?_, ?_⟩
  · cases c with
    | b o => exact bStep_iteration_mono sys o
    | v o => exact Nat.le_of_eq (vStep_iteration_eq sys o).symm
    | r o => exact Nat.le_of_eq (rStep_iteration_eq sys o).symm
  · intro h
    cases c with
    | b o =>
        obtain ⟨h1, h2, h3, h4, h5⟩ := bStep_iteration_change sys o h
        exact ⟨⟨o, rfl⟩, h1, h2, h3, h4, h5⟩
    | v o => exact absurd (vStep_iteration_eq sys o) h
    | r o => exact absurd (rStep_iteration_eq sys o) h
  · intro hpc hmax o
    rw [step_b_def, bStep_eq_idle sys o hpc, if_pos (by simp [hmax])]
    exact ⟨rfl, rfl, rfl⟩
  · intro h cs hok
    exact stuckInv_run cs sys h hok

/-! ## `sleep` and the abort listener (orchestrator.ts)

`sleep(ms, signal)` starts a timer and adds an `"abort"` listener that
clears the timer and resolves early.  `setTimeout` and `AbortSignal` are
platform collaborators with the DOM semantics: `abort()` dispatches the
`"abort"` event once, at the unset→set transition, only to listeners
already registered at that moment — a listener added to an
already-aborted signal is never invoked.  Times are abstract instants;
`abortAt` is the instant `abort()` was first called, if ever. -/

/-- The instant `sleep`'s abort listener fires, if ever: only when the
abort transition happens strictly after the listener was registered. -/
def listenerFire (reg : Nat) (abortAt : Option Nat) : Option Nat :=
  match abortAt with
  | none => none
  | some a => if reg < a then some a else none

/-- The instant the `sleep(start, ms)` promise resolves: at its timer's
expiry, or earlier when the abort listener fires. -/
def sleepWake (start ms : Nat) (abortAt : Option Nat) : Nat :=
  match listenerFire start abortAt with
  | none => start + ms
  | some a => min (start + ms) a

/-- C9. A `sleep` started at or after the instant the abort signal was
raised runs for its full timer duration before resolving — the abort
listener fires only on the unset→set transition, which already happened —
whereas a `sleep` started before the abort resolves at the earlier of its
timer and the abort; the wake-up never exceeds the full duration.  For
the verifier loop, whose post-prompt `sleep(interval)` is followed by the
loop-top abort check, this means a loop that finishes a role invocation
at a time `start` after Termination was raised delays its exit by exactly
the full configured interval `ms`. -/
theorem C9_sleep_after_abort_full_duration (start ms a : Nat) :
    (a ≤ start → sleepWake start ms (some a) = start + ms) ∧
    (start < a → sleepWake start ms (some a) = min (start + ms) a) ∧
    sleepWake start ms (some a) ≤ start + ms ∧
    sleepWake start ms none = start + ms := by
  refine ⟨?_, ?_, ?_, rfl⟩
  · intro h
    show (match (if start < a then some a else none) with
      | none => start + ms
      | some a => min (start + ms) a) = start + ms
    rw [if_neg (by omega)]
  · intro h
    show (match (if start < a then some a else none) with
      | none => start + ms
      | some a => min (start + ms) a) = min (start + ms) a
    rw [if_pos h]
  · show (match (if start < a then some a else none) with
      | none => start + ms
      | some a => min (start + ms) a) ≤ start + ms
    split
    · exact Nat.le_refl _
    · exact Nat.min_le_left _ _

end Subcalc
